import Mathlib

/-!
Verification of the `jsonpath` Go package (file `jsonpath.go`): a JSONPath-style
query and mutation language over JSON-shaped dynamic value trees.

The package is shallowly embedded:
* JSON-shaped Go `interface{}` trees become the inductive type `Value`
  (objects are association lists looked up by first match, mirroring Go map
  lookup; JSON numbers are modelled as integers, which is faithful for every
  input considered here).
* Go functions returning `(T, error)` become functions into `GoResult T`,
  whose `panicked` constructor records the places where the Go code would hit
  a runtime panic (out-of-range slice expressions, method calls on nil
  `reflect.Type`, `tokens[0]` on an empty slice).
* Go string scanning (`range` over a string, byte indexing) is modelled over
  `List Char`; all paths exercised by the package are ASCII, where Go byte
  positions and character positions agree.
* The in-place mutation done by `Set` (which relies on Go maps and slices
  being reference types) is modelled by an explicit heap: `Node`s stored at
  addresses, with container nodes holding addresses of their children.
* The two genuinely external collaborators, the Go regular-expression engine
  used by `=~` filters and the `go/types` constant evaluator used by `cmpAny`,
  are handled as follows: regular-expression compilation/matching is a
  parameter (`rxc`) of every definition that can reach it, so all theorems
  hold for every possible matcher; `cmpAny`'s format-and-evaluate comparison
  is translated directly (numeric comparison when both operands are numeric,
  lexicographic string comparison of the rendered operands otherwise).
-/

set_option maxHeartbeats 1600000
set_option maxRecDepth 10000

namespace Jsonpath

/-- Go error values produced by the package: `NotExist{key}`,
`ErrGetFromNullObj`, and the various `fmt.Errorf` messages. -/
inductive JErr where
  | notExist (key : String)
  | getFromNull
  | msg (s : String)
deriving DecidableEq, Repr

/-- Outcome of running a Go function: a normal result, a returned `error`
value, a runtime panic, or divergence (used only when the explicit fuel of the
heap semantics runs out; the Go original would loop or recurse forever on
exactly those inputs). -/
inductive GoResult (α : Type) where
  | ok (a : α)
  | err (e : JErr)
  | panicked (m : String)
  | diverge
deriving DecidableEq, Repr

/-- True when the result is a returned Go error value. -/
def GoResult.isErr : GoResult α → Bool
  | .err _ => true
  | _ => false

/-- True when the result is a normal return. -/
def GoResult.isOk : GoResult α → Bool
  | .ok _ => true
  | _ => false

/-- JSON-shaped dynamic value: the shapes an `interface{}` decoded from JSON
can take. `null` is the nil interface; objects are `map[string]interface{}`
(modelled as an association list); arrays are `[]interface{}`. -/
inductive Value where
  | null
  | bool (b : Bool)
  | num (n : Int)
  | str (s : String)
  | arr (elems : List Value)
  | obj (fields : List (String × Value))

instance : Inhabited Value := ⟨.null⟩

/-- Go map lookup `m[key]` on the association-list model of an object. -/
def lookupField : List (String × Value) → String → Option Value
  | [], _ => none
  | (k, v) :: rest, key => if k == key then some v else lookupField rest key

mutual

/-- Embedding of `get_key(obj, key)`: key lookup on an object, mapped lookup
over every element of an array (keeping the successes, `NotExist` when none
succeed), `ErrGetFromNullObj` on nil, and a type error otherwise.
(`followPtr` is the identity on JSON-shaped values, which contain no
pointers.) -/
def get_key : Value → String → Except JErr Value
  | .null, _ => .error .getFromNull
  | .obj fields, key =>
      match lookupField fields key with
      | some v => .ok v
      | none => .error (.notExist key)
  | .arr elems, key =>
      let res := get_key_all elems key
      if res.isEmpty then .error (.notExist key) else .ok (.arr res)
  | _, _ => .error (.msg "object is not map or slice")

/-- The loop inside `get_key`'s slice case: `get_key` on each element in
order, keeping only the elements where the lookup succeeded. -/
def get_key_all : List Value → String → List Value
  | [], _ => []
  | e :: rest, key =>
      match get_key e key with
      | .ok v => v :: get_key_all rest key
      | .error _ => get_key_all rest key

end

/-- Embedding of `get_idx(obj, idx)`: single-element array indexing, negative
indices counting from the end, errors (never clamping) out of range. Calling
it on nil panics in Go (`reflect.TypeOf(nil).Kind()`). -/
def get_idx (v : Value) (idx : Int) : GoResult Value :=
  match v with
  | .null => .panicked "nil pointer dereference"
  | .arr elems =>
      let length : Int := elems.length
      if 0 ≤ idx then
        if length ≤ idx then
          .err (.msg ("index out of range: len: " ++ toString length ++ ", idx: " ++ toString idx))
        else .ok (elems.getD idx.toNat .null)
      else
        let idx2 := length + idx
        if idx2 < 0 then
          .err (.msg ("index out of range: len: " ++ toString length ++ ", idx: " ++ toString idx))
        else .ok (elems.getD idx2.toNat .null)
  | _ => .err (.msg "object is not Slice")

/-- The translated from-bound computed inside `get_range`: an omitted bound
defaults to `0`, a negative bound counts from the end. -/
def range_frm (length : Int) (frm : Option Int) : Int :=
  let fv := frm.getD 0
  if fv < 0 then length + fv else fv

/-- The translated (exclusive) to-bound computed inside `get_range`: an
omitted bound defaults to `length - 1`, a negative bound counts from the end,
and the syntactically inclusive bound becomes exclusive by adding one. -/
def range_to (length : Int) (tob : Option Int) : Int :=
  let tv := tob.getD (length - 1)
  if tv < 0 then length + tv + 1 else tv + 1

/-- Embedding of `get_range(obj, frm, to)`: contiguous sub-array selection.
After translating the bounds, `_frm` outside `[0, length-1]` or `_to` outside
`[0, length]` is a range error; `reflect.Value.Slice` panics when the
translated from-bound exceeds the to-bound. Nil panics as in `get_idx`. -/
def get_range (v : Value) (frm tob : Option Int) : GoResult Value :=
  match v with
  | .null => .panicked "nil pointer dereference"
  | .arr elems =>
      let length : Int := elems.length
      let f := range_frm length frm
      let t := range_to length tob
      if f < 0 ∨ length ≤ f then
        .err (.msg ("index [from] out of range: len: " ++ toString length ++ ", from: " ++ toString (frm.getD 0)))
      else if t < 0 ∨ length < t then
        .err (.msg ("index [to] out of range: len: " ++ toString length ++ ", to: " ++ toString (tob.getD (length - 1))))
      else if t < f then .panicked "slice index out of range"
      else .ok (.arr ((elems.drop f.toNat).take (t - f).toNat))
  | _ => .err (.msg "object is not Slice")

/-- The character constants used by the scanner, written via their code points
(these are the byte values the Go code compares against, e.g. `tail[0] == 39`
for the single quote). -/
def dollarChar : Char := Char.ofNat 36

/-- The at-sign character. -/
def atChar : Char := Char.ofNat 64

/-- The dot character. -/
def dotChar : Char := Char.ofNat 46

/-- The left-bracket character. -/
def lBracketChar : Char := Char.ofNat 91

/-- The right-bracket character. -/
def rBracketChar : Char := Char.ofNat 93

/-- The single-quote character (code 39, as the Go code writes it). -/
def quoteChar : Char := Char.ofNat 39

/-- The space character. -/
def spaceChar : Char := Char.ofNat 32

/-- The question-mark character. -/
def qMarkChar : Char := Char.ofNat 63

/-- The left-parenthesis character. -/
def lParenChar : Char := Char.ofNat 40

/-- The right-parenthesis character. -/
def rParenChar : Char := Char.ofNat 41

/-- The colon character. -/
def colonChar : Char := Char.ofNat 58

/-- The minus character. -/
def minusChar : Char := Char.ofNat 45

/-- The plus character. -/
def plusChar : Char := Char.ofNat 43

/-- The slash character. -/
def slashChar : Char := Char.ofNat 47

/-- The star character. -/
def starChar : Char := Char.ofNat 42

/-- The comma character. -/
def commaChar : Char := Char.ofNat 44

/-- The scanning loop of `tokenize`, one Go loop iteration per character.
State: the characters still to scan, the emitted tokens, and the token being
buffered (as its character list; Go indexes the token by bytes, which agree
with characters on ASCII input). The empty-characters case is the code after
the loop, which flushes a nonempty buffered token (stripping a leading dot
and collapsing a trailing duplicate `*`). Reading `tokens[len(tokens)-1]`
with no tokens yet would panic in Go, hence the `panicked` cases
(unreachable from `tokenize`, which always seeds one token). -/
def tokLoop : List Char → List String → List Char → GoResult (List String)
  | [], tokens, token =>
      if 0 < token.length then
        let token1 := if token.head? == some dotChar then token.drop 1 else token
        if token1 ≠ [starChar] then .ok (tokens ++ [String.mk token1])
        else
          match tokens.getLast? with
          | none => .panicked "index out of range"
          | some lastTok =>
              if lastTok ≠ "*" then .ok (tokens ++ [String.mk token1]) else .ok tokens
      else .ok tokens
  | x :: rest, tokens, token =>
      let token1 := token ++ [x]
      if token1 = [dotChar] then tokLoop rest tokens token1
      else if token1 = [dotChar, dotChar] then
        match tokens.getLast? with
        | none => .panicked "index out of range"
        | some lastTok =>
            let tokens1 := if lastTok ≠ "*" then tokens ++ ["*"] else tokens
            tokLoop rest tokens1 [dotChar]
      else if token1.contains lBracketChar then
        if x == rBracketChar ∧ ¬ ([Char.ofNat 92, rBracketChar].isSuffixOf token1) then
          let emitted := if token1.head? == some dotChar then token1.drop 1 else token1
          tokLoop rest (tokens ++ [String.mk emitted]) []
        else tokLoop rest tokens token1
      else if x == dotChar then
        let emitted :=
          if token1.head? == some dotChar then (token1.drop 1).dropLast
          else token1.dropLast
        tokLoop rest (tokens ++ [String.mk emitted]) [dotChar]
      else tokLoop rest tokens token1

/-- Embedding of `tokenize(query)`: splits a path string into raw step
tokens. The first character must make the buffered token `$` or `@`;
otherwise the syntax error is returned. On the empty string the Go loop body
never runs and the empty token list is returned (which then makes
`Compile` panic on `tokens[0]`). -/
def tokenize (query : String) : GoResult (List String) :=
  match query.toList with
  | [] => .ok []
  | c :: rest =>
      if c == dollarChar ∨ c == atChar then tokLoop rest [String.mk [c]] []
      else .err (.msg "should start with $")

/-- Go `strings.Trim(s, " ")` on a character list: strip leading and
trailing spaces. -/
def trimSpaces (cs : List Char) : List Char :=
  ((cs.dropWhile (· == spaceChar)).reverse.dropWhile (· == spaceChar)).reverse

/-- Accumulated value of a digit list (helper for `atoi`). -/
def digitsVal (cs : List Char) : Nat :=
  cs.foldl (fun a c => a * 10 + (c.toNat - 48)) 0

/-- A nonempty all-digit character list parsed as a natural number. -/
def natOfDigits (cs : List Char) : Option Nat :=
  if cs ≠ [] ∧ cs.all (fun c => c.isDigit) then some (digitsVal cs) else none

/-- Go `strconv.Atoi`: optional sign followed by at least one digit
(machine-integer overflow, which Go reports as an error, is not modelled:
no path in scope carries indices near 2^63). -/
def atoi (cs : List Char) : Option Int :=
  match cs with
  | [] => none
  | c :: rest =>
      if c == minusChar then (natOfDigits rest).map (fun n => -(n : Int))
      else if c == plusChar then (natOfDigits rest).map (fun n => (n : Int))
      else (natOfDigits (c :: rest)).map (fun n => (n : Int))

/-- Embedding of `checkFilter(filter)`: the clause must start `@.` or `$.`. -/
def checkFilter (filter : String) : Bool :=
  [atChar, dotChar].isPrefixOf filter.toList || [dollarChar, dotChar].isPrefixOf filter.toList

/-- Go `strings.Index(s, c)` for a single character, as a character
position. -/
def idxOfChar (cs : List Char) (c : Char) : Option Nat :=
  cs.findIdx? (· == c)

/-- Go `strings.LastIndex(s, c)` for a single character, as a character
position. -/
def lastIdxOfChar (cs : List Char) (c : Char) : Option Nat :=
  match cs.reverse.findIdx? (· == c) with
  | none => none
  | some i => some (cs.length - 1 - i)

/-- Go string slicing `s[a:b]` by character positions (the caller checks the
`a ≤ b` panic condition, as the embedded code does explicitly). -/
def sliceChars (cs : List Char) (a b : Nat) : List Char :=
  (cs.drop a).take (b - a)

/-- Go `strings.Split(s, sep)` for a one-character separator. -/
def splitOnChar (sep : Char) (cs : List Char) : List (List Char) :=
  match cs with
  | [] => [[]]
  | c :: rest =>
      let r := splitOnChar sep rest
      if c == sep then [] :: r
      else
        match r with
        | [] => [[c]]
        | piece :: more => (c :: piece) :: more

/-- Embedding of `extractExpression(expr)`: the text between the first `(`
and the last `)`, trimmed, together with `checkFilter` of it; `("", false)`
when either parenthesis is missing. Go panics when the first `(` lies after
the last `)` (`expr[first+1:last]` with reversed bounds). -/
def extractExpression (expr : List Char) : GoResult (String × Bool) :=
  match idxOfChar expr lParenChar, lastIdxOfChar expr rParenChar with
  | some first, some last =>
      if first + 1 > last then .panicked "slice bounds out of range"
      else
        let e := String.mk (trimSpaces (sliceChars expr (first + 1) last))
        .ok (e, checkFilter e)
  | _, _ => .ok ("", false)

/-- A compiled path step: the `step{op, key, args}` record with the
`interface{}` payload split by operation (`key`'s payload is the optional
quoted subkey, `idx`'s the index list, `range`'s the two optional bounds,
`filter`'s and `expr`'s the raw clause text). -/
inductive Step where
  | root
  | scan
  | key (k : String) (subKey : Option String)
  | idx (k : String) (idxs : List Int)
  | range (k : String) (frm tob : Option Int)
  | filter (k : String) (clause : String)
  | expr (k : String) (e : String)
deriving DecidableEq, Repr

/-- The index-list loop of `parse_token`: each comma piece trimmed and parsed
by `Atoi`, the first failure aborting compilation. -/
def parse_idx_pieces : List (List Char) → GoResult (List Int)
  | [] => .ok []
  | p :: rest =>
      match atoi (trimSpaces p) with
      | some i =>
          match parse_idx_pieces rest with
          | .ok is => .ok (i :: is)
          | r => r
      | none => .err (.msg ("invalid syntax: " ++ String.mk (trimSpaces p)))

/-- Embedding of `parse_token(token)`: classify one raw token into a `Step`.
Order of the syntactic tests follows the source: root, scan, no bracket,
quoted key, filter, expression, slice, `*`, index list. In the slice case the
Go code reuses one `err` variable for both bounds, so a parse failure on the
from side is overwritten by the to side parse and only a non-numeric
non-empty to side is reported. -/
def parse_token (token : String) : GoResult Step :=
  if token == "$" then .ok .root
  else if token == "*" then .ok .scan
  else
    match idxOfChar token.toList lBracketChar with
    | none => .ok (.key token none)
    | some bracket_idx =>
        let key := String.mk (token.toList.take bracket_idx)
        let tail0 := token.toList.drop bracket_idx
        if tail0.length < 3 then .err (.msg ("len(tail) should be at least 3: " ++ String.mk tail0))
        else
          let tail := (tail0.drop 1).dropLast
          if tail.head? == some quoteChar ∧ tail.length > 2 then
            .ok (.key key (some (String.mk ((tail.drop 1).dropLast))))
          else if tail.contains qMarkChar then
            match idxOfChar tail lParenChar, lastIdxOfChar tail rParenChar with
            | some first, some last =>
                if first + 1 > last then .panicked "slice bounds out of range"
                else
                  let filter := String.mk (trimSpaces (sliceChars tail (first + 1) last))
                  if ¬ checkFilter filter then .err (.msg ("invalid filter: " ++ String.mk tail))
                  else .ok (.filter key filter)
            | _, _ => .err (.msg ("invalid filter must contains parenthesis: " ++ String.mk tail))
          else
            match extractExpression tail with
            | .panicked m => .panicked m
            | .err e => .err e
            | .diverge => .diverge
            | .ok (e, true) => .ok (.expr key e)
            | .ok (_, false) =>
                if tail.contains colonChar then
                  let tails := splitOnChar colonChar tail
                  if tails.length ≠ 2 then
                    .err (.msg ("only support one range(from, to): " ++ String.mk tail))
                  else
                    let t1 := trimSpaces (tails.getD 1 [])
                    if (atoi t1).isNone ∧ t1 ≠ [] then
                      .err (.msg ("invalid syntax: " ++ String.mk t1))
                    else .ok (.range key (atoi (trimSpaces (tails.getD 0 []))) (atoi t1))
                else if tail = [starChar] then .ok (.range key none none)
                else
                  match parse_idx_pieces (splitOnChar commaChar tail) with
                  | .ok is => .ok (.idx key is)
                  | .err e => .err e
                  | .panicked m => .panicked m
                  | .diverge => .diverge

/-- The compilation loop of `Compile`: `parse_token` on each raw token after
the root marker, the first error aborting. -/
def parseTokens : List String → GoResult (List Step)
  | [] => .ok []
  | t :: rest =>
      match parse_token t with
      | .ok s =>
          match parseTokens rest with
          | .ok ss => .ok (s :: ss)
          | r => r
      | .err e => .err e
      | .panicked m => .panicked m
      | .diverge => .diverge

/-- Embedding of `Compile(jpath)`: tokenize, require the first token to be
`$` or `@`, then parse the remaining tokens into steps. Reading `tokens[0]`
panics when `tokenize` returned no tokens, which happens exactly on the
empty path. -/
def Compile (jpath : String) : GoResult (List Step) :=
  match tokenize jpath with
  | .ok tokens =>
      match tokens with
      | [] => .panicked "index out of range"
      | t0 :: rest =>
          if t0 ≠ "@" ∧ t0 ≠ "$" then .err (.msg "$ or @ should in front of path")
          else parseTokens rest
  | .err e => .err e
  | .panicked m => .panicked m
  | .diverge => .diverge

/-- Sequencing of Go results: stop at the first returned error, panic, or
divergence (the `if err != nil { return nil, err }` pattern). -/
def GoResult.bind : GoResult α → (α → GoResult β) → GoResult β
  | .ok a, f => f a
  | .err e, _ => .err e
  | .panicked m, _ => .panicked m
  | .diverge, _ => .diverge

instance : Monad GoResult where
  pure := .ok
  bind := GoResult.bind

/-- A Go `(value, error)` pair viewed as a `GoResult`. -/
def ofExcept : Except JErr α → GoResult α
  | .ok a => .ok a
  | .error e => .err e

mutual

/-- Go `fmt.Sprintf("%v", v)` on a JSON-shaped value, used by `cmpAny` to
build the comparison expression (map rendering order follows the association
list; no claim in scope depends on the rendering of containers). -/
def formatVal : Value → String
  | .null => "<nil>"
  | .bool b => if b then "true" else "false"
  | .num n => toString n
  | .str s => s
  | .arr xs => "[" ++ formatList xs ++ "]"
  | .obj fs => "map[" ++ formatFields fs ++ "]"

/-- Space-separated rendering of array elements. -/
def formatList : List Value → String
  | [] => ""
  | [x] => formatVal x
  | x :: y :: rest => formatVal x ++ " " ++ formatList (y :: rest)

/-- Space-separated `key:value` rendering of object fields. -/
def formatFields : List (String × Value) → String
  | [] => ""
  | [(k, v)] => k ++ ":" ++ formatVal v
  | (k, v) :: p :: rest => k ++ ":" ++ formatVal v ++ " " ++ formatFields (p :: rest)

end

/-- Embedding of `isNumber(o)`: native numbers, and strings that parse as
numbers (with numbers modelled as integers, string parsing uses integer
syntax). -/
def isNumber (o : Value) : Bool :=
  match o with
  | .num _ => true
  | .str s => (atoi s.toList).isSome
  | _ => false

/-- Numeric value of an operand `isNumber` accepted. -/
def numVal (o : Value) : Int :=
  match o with
  | .num n => n
  | .str s => (atoi s.toList).getD 0
  | _ => 0

/-- Embedding of `cmpAny(obj1, obj2, op)`: only the five relational
operators are accepted; the Go code renders both operands into a source
expression and evaluates it with `go/types`, comparing numerically when both
operands are numeric and as strings otherwise. The model performs the same
comparison directly (lexicographic character order coincides with Go byte
order on ASCII). -/
def cmpAny (obj1 obj2 : Value) (op : String) : GoResult Bool :=
  if op == "<" ∨ op == "<=" ∨ op == "==" ∨ op == ">=" ∨ op == ">" then
    if isNumber obj1 ∧ isNumber obj2 then
      let a := numVal obj1
      let b := numVal obj2
      if op == "<" then .ok (decide (a < b))
      else if op == "<=" then .ok (decide (a ≤ b))
      else if op == "==" then .ok (decide (a = b))
      else if op == ">=" then .ok (decide (b ≤ a))
      else .ok (decide (b < a))
    else
      let a := formatVal obj1
      let b := formatVal obj2
      if op == "<" then .ok (decide (a < b))
      else if op == "<=" then .ok (decide (a ≤ b))
      else if op == "==" then .ok (a == b)
      else if op == ">=" then .ok (decide (b ≤ a))
      else .ok (decide (b < a))
  else .err (.msg ("invalid filter operation " ++ op))

/-- The character loop of `parse_filter`: a three-stage state machine over
space-delimited parts, with single-quoted text protected from splitting.
State: remaining characters, the three collected parts, the part being
buffered, the stage index, the inside-quotes flag (which the Go code sets on
an opening quote and never resets), and the character index (used only in
the error message). -/
def parse_filter_loop : List Char → List Char → List Char → List Char → List Char → Nat → Bool → Nat → Except JErr (String × String × String)
  | [], lp, op, rp, tmp, stage, _, _ =>
      if tmp ≠ [] then
        if stage = 0 then .ok (String.mk tmp, "exists", String.mk rp)
        else if stage = 1 then .ok (String.mk lp, String.mk tmp, String.mk rp)
        else if stage = 2 then .ok (String.mk lp, String.mk op, String.mk tmp)
        else .ok (String.mk lp, String.mk op, String.mk rp)
      else .ok (String.mk lp, String.mk op, String.mk rp)
  | c :: rest, lp, op, rp, tmp, stage, embrace, idx =>
      if c == quoteChar then
        if ¬ embrace then parse_filter_loop rest lp op rp tmp stage true (idx + 1)
        else
          if stage = 0 then parse_filter_loop rest tmp op rp [] stage embrace (idx + 1)
          else if stage = 1 then parse_filter_loop rest lp tmp rp [] stage embrace (idx + 1)
          else if stage = 2 then parse_filter_loop rest lp op tmp [] stage embrace (idx + 1)
          else parse_filter_loop rest lp op rp [] stage embrace (idx + 1)
      else if c == spaceChar then
        if embrace then parse_filter_loop rest lp op rp (tmp ++ [c]) stage embrace (idx + 1)
        else
          let next := fun lp1 op1 rp1 =>
            if stage + 1 > 2 then
              Except.error (JErr.msg ("invalid char at " ++ toString idx ++ ": " ++ String.mk [c]))
            else parse_filter_loop rest lp1 op1 rp1 [] (stage + 1) embrace (idx + 1)
          if stage = 0 then next tmp op rp
          else if stage = 1 then next lp tmp rp
          else if stage = 2 then next lp op tmp
          else next lp op rp
      else parse_filter_loop rest lp op rp (tmp ++ [c]) stage embrace (idx + 1)

/-- Embedding of `parse_filter(filter)`: split a filter clause into left
operand, operator, and right operand; a clause with a single part gets the
implicit `exists` operator, and more than two stage advances is an error. -/
def parse_filter (filter : String) : Except JErr (String × String × String) :=
  parse_filter_loop filter.toList [] [] [] [] 0 false 0

/-- The step loop of `filter_get_from_explicit_path`: only plain key steps
and single-index steps are allowed in a filter operand path. The Go code
discards `parse_token`'s error and switches on the returned `op`, so every
`parse_token` failure (which always carries an `op` other than `key` and
`idx`) lands in the default branch's error. -/
def fgfe_loop : List String → Value → GoResult Value
  | [], xobj => .ok xobj
  | s :: rest, xobj =>
      match parse_token s with
      | .panicked m => .panicked m
      | .diverge => .diverge
      | .err _ => .err (.msg "expression don't support in filter")
      | .ok st =>
          match st with
          | .key k _ =>
              GoResult.bind (ofExcept (get_key xobj k)) (fun x1 => fgfe_loop rest x1)
          | .idx k idxs =>
              if idxs.length ≠ 1 then .err (.msg "don't support multiple index in filter")
              else
                GoResult.bind (ofExcept (get_key xobj k)) (fun x1 =>
                  GoResult.bind (get_idx x1 (idxs.getD 0 0)) (fun x2 => fgfe_loop rest x2))
          | _ => .err (.msg "expression don't support in filter")

/-- Embedding of `filter_get_from_explicit_path(obj, path)`: tokenize the
operand path, require the `@`/`$` root marker, and walk the restricted
key/index steps from `obj`. -/
def filter_get_from_explicit_path (obj : Value) (path : String) : GoResult Value :=
  GoResult.bind (tokenize path) (fun steps =>
    match steps with
    | [] => .panicked "index out of range"
    | s0 :: rest =>
        if s0 ≠ "@" ∧ s0 ≠ "$" then .err (.msg "$ or @ should in front of path")
        else fgfe_loop rest obj)

/-- Embedding of `get_lp_v(obj, root, lp)`: `@.`-prefixed operands resolve
from the current element, `$.`-prefixed ones from the root, anything else is
an invalid operand. -/
def get_lp_v (obj root : Value) (lp : String) : GoResult Value :=
  if [atChar, dotChar].isPrefixOf lp.toList then filter_get_from_explicit_path obj lp
  else if [dollarChar, dotChar].isPrefixOf lp.toList then filter_get_from_explicit_path root lp
  else .err (.msg ("invalid filter " ++ lp))

/-- Embedding of `regFilterCompile(rule)`: the rule must be at least three
runes and wrapped in slashes; the inside is handed to the external
regular-expression compiler, modelled by the parameter `rxc` (`none` is a
compilation failure). -/
def regFilterCompile (rxc : String → Option (String → Bool)) (rule : String) : GoResult (String → Bool) :=
  let runes := rule.toList
  if runes.length ≤ 2 then .err (.msg "empty rule")
  else if runes.head? ≠ some slashChar ∨ runes.getLast? ≠ some slashChar then
    .err (.msg "invalid syntax. should be in pattern form")
  else
    match rxc (String.mk ((runes.drop 1).dropLast)) with
    | some pat => .ok pat
    | none => .err (.msg "regexp compile error")

/-- Embedding of `eval_reg_filter(obj, root, lp, pat)`: resolve the left
operand (errors are propagated here, unlike `eval_filter`) and match when it
is a string. -/
def eval_reg_filter (obj root : Value) (lp : String) (pat : String → Bool) : GoResult Bool :=
  GoResult.bind (get_lp_v obj root lp) (fun lp_v =>
    match lp_v with
    | .str s => .ok (pat s)
    | _ => .err (.msg "only string can match with regular expression"))

/-- Embedding of `eval_filter(obj, root, lp, op, rp)`. The Go code never
checks the error from resolving either operand: a failed resolution leaves
the operand `nil`. `exists` is true exactly when the left operand resolved
without error to a non-nil value; `=~` is unreachable here (filtered out by
`get_filtered` before this call); anything else compares via `cmpAny`, with
an unprefixed right operand taken as a literal string. -/
def eval_filter (obj root : Value) (lp op rp : String) : GoResult Bool :=
  match get_lp_v obj root lp with
  | .panicked m => .panicked m
  | .diverge => .diverge
  | lpres =>
      let lp_v : Value := match lpres with | .ok v => v | _ => .null
      if op == "exists" then
        .ok (match lp_v with | .null => false | _ => true)
      else if op == "=~" then .err (.msg "not implemented yet")
      else
        match (if [atChar, dotChar].isPrefixOf rp.toList then filter_get_from_explicit_path obj rp
               else if [dollarChar, dotChar].isPrefixOf rp.toList then filter_get_from_explicit_path root rp
               else .ok (.str rp)) with
        | .panicked m => .panicked m
        | .diverge => .diverge
        | rpres =>
            let rp_v : Value := match rpres with | .ok v => v | _ => .null
            cmpAny lp_v rp_v op

/-- The element loop of `get_filtered` for comparison filters: evaluate the
clause on each candidate in order and keep the candidates where it held. -/
def eval_filter_elems (root : Value) (lp op rp : String) : List Value → GoResult (List Value)
  | [] => .ok []
  | tmp :: rest =>
      GoResult.bind (eval_filter tmp root lp op rp) (fun ok =>
        GoResult.bind (eval_filter_elems root lp op rp rest) (fun res =>
          .ok (if ok then tmp :: res else res)))

/-- The element loop of `get_filtered` for `=~` filters. -/
def eval_reg_filter_elems (root : Value) (lp : String) (pat : String → Bool) : List Value → GoResult (List Value)
  | [] => .ok []
  | tmp :: rest =>
      GoResult.bind (eval_reg_filter tmp root lp pat) (fun ok =>
        GoResult.bind (eval_reg_filter_elems root lp pat rest) (fun res =>
          .ok (if ok then tmp :: res else res)))

/-- Embedding of `get_filtered(obj, root, filter)`: parse the clause, then
filter the elements of an array (in order) or the values of an object (in
the container's iteration order, here the association-list order). Nil
panics (`reflect.TypeOf(nil).Kind()`); other non-containers are a type
error. -/
def get_filtered (rxc : String → Option (String → Bool)) (obj root : Value) (filter : String) : GoResult (List Value) :=
  match parse_filter filter with
  | .error e => .err e
  | .ok (lp, op, rp) =>
      match obj with
      | .arr elems =>
          if op == "=~" then
            GoResult.bind (regFilterCompile rxc rp) (fun pat =>
              eval_reg_filter_elems root lp pat elems)
          else eval_filter_elems root lp op rp elems
      | .obj fields =>
          if op == "=~" then
            GoResult.bind (regFilterCompile rxc rp) (fun pat =>
              eval_reg_filter_elems root lp pat (fields.map Prod.snd))
          else eval_filter_elems root lp op rp (fields.map Prod.snd)
      | .null => .panicked "nil pointer dereference"
      | _ => .err (.msg "don't support filter on this type")

/-- Embedding of `lookupKey(obj, s)`: returns the `(parent, child)` pair and
the error. With a quoted subkey the child is looked up one level further and
the parent becomes the intermediate object; with an empty step key the
subkey takes its place. The child is nil exactly on error. -/
def lookupKey (v : Value) (k : String) (args : Option String) : (Value × Value) × Option JErr :=
  let subKey0 := args.getD ""
  let key := if k == "" ∧ subKey0 ≠ "" then subKey0 else k
  let subKey := if k == "" ∧ subKey0 ≠ "" then "" else subKey0
  match get_key v key with
  | .error e => ((v, .null), some e)
  | .ok child =>
      if subKey ≠ "" then
        match get_key child subKey with
        | .ok c2 => ((child, c2), none)
        | .error e => ((child, .null), some e)
      else ((v, child), none)

/-- Embedding of `lookupExpression(obj, rootObj, s)`: resolve the step key,
evaluate the scripted expression via `get_lp_v`, and use a string result as
a key or an integer result as an index. -/
def lookupExpression (obj root : Value) (k e : String) : GoResult Value :=
  GoResult.bind (ofExcept (get_key obj k)) (fun obj1 =>
    GoResult.bind (get_lp_v obj1 root e) (fun keyv =>
      match keyv with
      | .str s => ofExcept (get_key obj1 s)
      | .num n => get_idx obj1 n
      | _ => .err (.msg "extracted invalid expression")))

/-- The multi-index loop of `Lookup`: `get_idx` for each listed index in the
listed order. -/
def idx_collect (obj : Value) : List Int → GoResult (List Value)
  | [] => .ok []
  | x :: rest =>
      GoResult.bind (get_idx obj x) (fun tmp =>
        GoResult.bind (idx_collect obj rest) (fun res => .ok (tmp :: res)))

/-- The step loop of `Compiled.Lookup`: execute the steps left to right
against the current value, remembering the root for `$.`-rooted filter and
script operands. A `scan` step returns the current value immediately; a
stray `root` step lands in the switch's default error. (The Go guard
`range args length should be 2` is unreachable: the typed `Step` carries
exactly two optional bounds, as `parse_token` always produces.) -/
def lookupSteps (rxc : String → Option (String → Bool)) (rootObj : Value) : Value → List Step → GoResult Value
  | obj, [] => .ok obj
  | obj, s :: rest =>
      match s with
      | .key k sub =>
          match lookupKey obj k sub with
          | (_, some e) => .err e
          | ((_, child), none) => lookupSteps rxc rootObj child rest
      | .idx k idxs =>
          GoResult.bind (if 0 < k.length then ofExcept (get_key obj k) else .ok obj) (fun obj1 =>
            if 1 < idxs.length then
              GoResult.bind (idx_collect obj1 idxs) (fun res =>
                lookupSteps rxc rootObj (.arr res) rest)
            else if idxs.length = 1 then
              GoResult.bind (get_idx obj1 (idxs.getD 0 0)) (fun v =>
                lookupSteps rxc rootObj v rest)
            else .err (.msg "cannot index on empty slice"))
      | .range k frm tob =>
          GoResult.bind (if 0 < k.length then ofExcept (get_key obj k) else .ok obj) (fun obj1 =>
            GoResult.bind (get_range obj1 frm tob) (fun v =>
              lookupSteps rxc rootObj v rest))
      | .filter k clause =>
          GoResult.bind (ofExcept (get_key obj k)) (fun obj1 =>
            GoResult.bind (get_filtered rxc obj1 rootObj clause) (fun res =>
              lookupSteps rxc rootObj (.arr res) rest))
      | .expr k e =>
          GoResult.bind (lookupExpression obj rootObj k e) (fun v =>
            lookupSteps rxc rootObj v rest)
      | .scan => .ok obj
      | .root => .err (.msg "expression don't support in filter")

/-- Embedding of `Compiled.Lookup(rootObj)`: run the compiled steps with the
current value starting at the root. -/
def Lookup (rxc : String → Option (String → Bool)) (rootObj : Value) (steps : List Step) : GoResult Value :=
  lookupSteps rxc rootObj rootObj steps

/-! ### The heap model

`Set` mutates the tree in place through Go's reference semantics for maps and
slices: the traversal's `parent`/`child` cursors alias the tree, and writing
through them is visible from the root. To state mutation and frame
properties, values are boxed into an explicit heap: every Go `interface{}`
value is the address of a `Node`, and container nodes hold the addresses of
their children. JSON `null` is the nil interface, boxed like every scalar. -/

/-- Heap address. -/
abbrev Addr := Nat

/-- A heap node: a scalar, or a container holding children by address. -/
inductive Node where
  | null
  | bool (b : Bool)
  | num (n : Int)
  | str (s : String)
  | arr (elems : List Addr)
  | obj (fields : List (String × Addr))
deriving DecidableEq, Repr

/-- The store: an association list of allocated nodes plus the next fresh
address. -/
structure Heap where
  mem : List (Addr × Node)
  next : Addr
deriving DecidableEq, Repr

/-- The node stored at an address. -/
def Heap.get (h : Heap) (a : Addr) : Option Node :=
  h.mem.lookup a

/-- Replace the entry at an address (helper for `Heap.set`). -/
def setMem : List (Addr × Node) → Addr → Node → List (Addr × Node)
  | [], _, _ => []
  | (b, m) :: rest, a, n => if b = a then (a, n) :: rest else (b, m) :: setMem rest a n

/-- In-place update of the node at an existing address (a write through a Go
map or slice reference). -/
def Heap.set (h : Heap) (a : Addr) (n : Node) : Heap :=
  ⟨setMem h.mem a n, h.next⟩

/-- Allocate a fresh node (a Go allocation: a new slice or map header). -/
def Heap.alloc (h : Heap) (n : Node) : Addr × Heap :=
  (h.next, ⟨(h.next, n) :: h.mem, h.next + 1⟩)

/-- Well-formed heap: every allocated address lies below the fresh-address
watermark, so allocation never shadows an existing cell. -/
def Heap.WF (h : Heap) : Prop :=
  ∀ p ∈ h.mem, p.1 < h.next

instance (h : Heap) : Decidable h.WF := by
  unfold Heap.WF; infer_instance

mutual

/-- Decode the value tree rooted at an address (with fuel, since nothing
prevents a heap from containing cycles — just as nothing prevents a cyclic
Go value). -/
def readVal : Nat → Heap → Addr → Option Value
  | 0, _, _ => none
  | fuel + 1, h, a =>
      match h.get a with
      | none => none
      | some .null => some .null
      | some (.bool b) => some (.bool b)
      | some (.num n) => some (.num n)
      | some (.str s) => some (.str s)
      | some (.arr es) => (readVals fuel h es).map .arr
      | some (.obj fs) => (readFields fuel h fs).map .obj
termination_by fuel _ _ => (fuel, 0)

/-- Decode a list of addresses. -/
def readVals : Nat → Heap → List Addr → Option (List Value)
  | _, _, [] => some []
  | fuel, h, a :: rest =>
      match readVal fuel h a, readVals fuel h rest with
      | some v, some vs => some (v :: vs)
      | _, _ => none
termination_by fuel _ es => (fuel, es.length + 1)

/-- Decode object fields. -/
def readFields : Nat → Heap → List (String × Addr) → Option (List (String × Value))
  | _, _, [] => some []
  | fuel, h, (k, a) :: rest =>
      match readVal fuel h a, readFields fuel h rest with
      | some v, some vs => some ((k, v) :: vs)
      | _, _ => none
termination_by fuel _ fs => (fuel, fs.length + 1)

end

mutual

/-- Allocate a whole value tree into the heap, returning the root address. -/
def allocVal : Heap → Value → Addr × Heap
  | h, .null => h.alloc .null
  | h, .bool b => h.alloc (.bool b)
  | h, .num n => h.alloc (.num n)
  | h, .str s => h.alloc (.str s)
  | h, .arr xs =>
      let (as, h1) := allocVals h xs
      h1.alloc (.arr as)
  | h, .obj fs =>
      let (ps, h1) := allocFields h fs
      h1.alloc (.obj ps)

/-- Allocate a list of values. -/
def allocVals : Heap → List Value → List Addr × Heap
  | h, [] => ([], h)
  | h, x :: rest =>
      let (a, h1) := allocVal h x
      let (as, h2) := allocVals h1 rest
      (a :: as, h2)

/-- Allocate object fields. -/
def allocFields : Heap → List (String × Value) → List (String × Addr) × Heap
  | h, [] => ([], h)
  | h, (k, x) :: rest =>
      let (a, h1) := allocVal h x
      let (ps, h2) := allocFields h1 rest
      ((k, a) :: ps, h2)

end

/-- Go map lookup on a node's field list. -/
def lookupFieldN : List (String × Addr) → String → Option Addr
  | [], _ => none
  | (k, a) :: rest, key => if k == key then some a else lookupFieldN rest key

/-- Go map assignment on a node's field list: replace the binding, or insert
when the key is absent. -/
def setFieldN : List (String × Addr) → String → Addr → List (String × Addr)
  | [], key, a => [(key, a)]
  | (k, b) :: rest, key, a =>
      if k == key then (key, a) :: rest else (k, b) :: setFieldN rest key a

mutual

/-- `get_key` over the heap. Same branches as `get_key`; the slice case
builds a fresh array node for the flattened results (a fresh Go slice),
whose elements alias the original tree. Fuel bounds the recursion, which in
Go is bounded only by the (possibly cyclic) data. -/
def get_key_h : Nat → Heap → Addr → String → GoResult Addr × Heap
  | 0, h, _, _ => (.diverge, h)
  | fuel + 1, h, a, key =>
      match h.get a with
      | none => (.panicked "invalid address", h)
      | some .null => (.err .getFromNull, h)
      | some (.obj fs) =>
          match lookupFieldN fs key with
          | some b => (.ok b, h)
          | none => (.err (.notExist key), h)
      | some (.arr es) =>
          let (res, h1) := get_key_all_h fuel h es key
          if res.isEmpty then (.err (.notExist key), h1)
          else
            let (r, h2) := h1.alloc (.arr res)
            (.ok r, h2)
      | some _ => (.err (.msg "object is not map or slice"), h)
termination_by fuel _ _ _ => (fuel, 0)

/-- The element loop of `get_key_h`: failures are skipped, successes kept in
order (their allocations, like Go's, are kept either way). -/
def get_key_all_h : Nat → Heap → List Addr → String → List Addr × Heap
  | _, h, [], _ => ([], h)
  | fuel, h, e :: rest, key =>
      match get_key_h fuel h e key with
      | (.ok v, h1) =>
          let (vs, h2) := get_key_all_h fuel h1 rest key
          (v :: vs, h2)
      | (_, h1) => get_key_all_h fuel h1 rest key
termination_by fuel _ es _ => (fuel, es.length + 1)

end

/-- `get_idx` over the heap: a pure read returning the element's address. -/
def get_idx_h (h : Heap) (a : Addr) (idx : Int) : GoResult Addr :=
  match h.get a with
  | none => .panicked "invalid address"
  | some .null => .panicked "nil pointer dereference"
  | some (.arr es) =>
      let length : Int := es.length
      if 0 ≤ idx then
        if length ≤ idx then
          .err (.msg ("index out of range: len: " ++ toString length ++ ", idx: " ++ toString idx))
        else .ok (es.getD idx.toNat 0)
      else
        let idx2 := length + idx
        if idx2 < 0 then
          .err (.msg ("index out of range: len: " ++ toString length ++ ", idx: " ++ toString idx))
        else .ok (es.getD idx2.toNat 0)
  | some _ => .err (.msg "object is not Slice")

/-- `get_range` over the heap: allocates the sub-slice header; its elements
alias the original array's elements, as Go sub-slicing shares the backing
array. -/
def get_range_h (h : Heap) (a : Addr) (frm tob : Option Int) : GoResult Addr × Heap :=
  match h.get a with
  | none => (.panicked "invalid address", h)
  | some .null => (.panicked "nil pointer dereference", h)
  | some (.arr es) =>
      let length : Int := es.length
      let f := range_frm length frm
      let t := range_to length tob
      if f < 0 ∨ length ≤ f then
        (.err (.msg ("index [from] out of range: len: " ++ toString length ++ ", from: " ++ toString (frm.getD 0))), h)
      else if t < 0 ∨ length < t then
        (.err (.msg ("index [to] out of range: len: " ++ toString length ++ ", to: " ++ toString (tob.getD (length - 1)))), h)
      else if t < f then (.panicked "slice index out of range", h)
      else
        let (r, h1) := h.alloc (.arr ((es.drop f.toNat).take (t - f).toNat))
        (.ok r, h1)
  | some _ => (.err (.msg "object is not Slice"), h)

/-- `lookupKey` over the heap: the `(parent, child)` address pair and the
carried error; the child is `none` exactly when the error is set (the Go nil
interface). Panics and fuel exhaustion from the key lookups propagate
through the outer `GoResult`. -/
def lookupKey_h (fuel : Nat) (h : Heap) (a : Addr) (k : String) (args : Option String) :
    GoResult ((Addr × Option Addr) × Option JErr) × Heap :=
  let subKey0 := args.getD ""
  let key := if k == "" ∧ subKey0 ≠ "" then subKey0 else k
  let subKey := if k == "" ∧ subKey0 ≠ "" then "" else subKey0
  match get_key_h fuel h a key with
  | (.panicked m, h1) => (.panicked m, h1)
  | (.diverge, h1) => (.diverge, h1)
  | (.err e, h1) => (.ok ((a, none), some e), h1)
  | (.ok child, h1) =>
      if subKey ≠ "" then
        match get_key_h fuel h1 child subKey with
        | (.panicked m, h2) => (.panicked m, h2)
        | (.diverge, h2) => (.diverge, h2)
        | (.err e, h2) => (.ok ((child, none), some e), h2)
        | (.ok c2, h2) => (.ok ((child, some c2), none), h2)
      else (.ok ((a, some child), none), h1)

/-- `get_lp_v` over the heap: filter operands are resolved by reading the
value trees at the current element and root and running the value-level
resolver (the Go original allocates temporaries while flattening; they are
unobservable reads here). -/
def get_lp_v_h (fuel : Nat) (h : Heap) (a rootA : Addr) (lp : String) : GoResult Value :=
  match readVal fuel h a, readVal fuel h rootA with
  | some obj, some root => get_lp_v obj root lp
  | _, _ => .diverge

/-- `get_filtered` over the heap: read the candidate container and the root,
run the value-level filter, and allocate the fresh result array (Go's result
slice is fresh; its elements alias the tree, which no later read
distinguishes from the allocated copy). -/
def get_filtered_h (rxc : String → Option (String → Bool)) (fuel : Nat) (h : Heap)
    (a rootA : Addr) (clause : String) : GoResult Addr × Heap :=
  match readVal fuel h a, readVal fuel h rootA with
  | some obj, some root =>
      match get_filtered rxc obj root clause with
      | .ok lst =>
          let (r, h1) := allocVal h (.arr lst)
          (.ok r, h1)
      | .err e => (.err e, h)
      | .panicked m => (.panicked m, h)
      | .diverge => (.diverge, h)
  | _, _ => (.diverge, h)

/-- `lookupExpression` over the heap: resolve the step key, evaluate the
scripted expression, then use a string result as a key or an integer result
as an index. -/
def lookupExpression_h (fuel : Nat) (h : Heap) (a rootA : Addr) (k e : String) : GoResult Addr × Heap :=
  match get_key_h fuel h a k with
  | (.err e2, h1) => (.err e2, h1)
  | (.panicked m, h1) => (.panicked m, h1)
  | (.diverge, h1) => (.diverge, h1)
  | (.ok obj1, h1) =>
      match get_lp_v_h fuel h1 obj1 rootA e with
      | .ok (.str s) => get_key_h fuel h1 obj1 s
      | .ok (.num n) => (get_idx_h h1 obj1 n, h1)
      | .ok _ => (.err (.msg "extracted invalid expression"), h1)
      | .err er => (.err er, h1)
      | .panicked m => (.panicked m, h1)
      | .diverge => (.diverge, h1)

/-- The multi-index loop of `Lookup` over the heap (pure reads). -/
def idx_collect_h (h : Heap) (a : Addr) : List Int → GoResult (List Addr)
  | [] => .ok []
  | x :: rest =>
      GoResult.bind (get_idx_h h a x) (fun t =>
        GoResult.bind (idx_collect_h h a rest) (fun ts => .ok (t :: ts)))

/-- The step loop of `Compiled.Lookup` over the heap: identical control flow
to `lookupSteps`, with fresh array nodes allocated where the Go code builds
fresh slices (flattened key results, multi-index results, sub-slices,
filter results). -/
def lookupLoop_h (rxc : String → Option (String → Bool)) (fuel : Nat) (h : Heap) (rootA : Addr) :
    Addr → List Step → GoResult Addr × Heap
  | obj, [] => (.ok obj, h)
  | obj, s :: rest =>
      match s with
      | .key k sub =>
          match lookupKey_h fuel h obj k sub with
          | (.panicked m, h1) => (.panicked m, h1)
          | (.diverge, h1) => (.diverge, h1)
          | (.err e, h1) => (.err e, h1)
          | (.ok (_, some e), h1) => (.err e, h1)
          | (.ok ((_, some child), none), h1) => lookupLoop_h rxc fuel h1 rootA child rest
          | (.ok ((_, none), none), h1) => (.panicked "nil child", h1)
      | .idx k idxs =>
          match (if 0 < k.length then get_key_h fuel h obj k else (.ok obj, h)) with
          | (.err e, h1) => (.err e, h1)
          | (.panicked m, h1) => (.panicked m, h1)
          | (.diverge, h1) => (.diverge, h1)
          | (.ok obj1, h1) =>
              if 1 < idxs.length then
                match idx_collect_h h1 obj1 idxs with
                | .ok res =>
                    let (r, h2) := h1.alloc (.arr res)
                    lookupLoop_h rxc fuel h2 rootA r rest
                | .err e => (.err e, h1)
                | .panicked m => (.panicked m, h1)
                | .diverge => (.diverge, h1)
              else if idxs.length = 1 then
                match get_idx_h h1 obj1 (idxs.getD 0 0) with
                | .ok v => lookupLoop_h rxc fuel h1 rootA v rest
                | .err e => (.err e, h1)
                | .panicked m => (.panicked m, h1)
                | .diverge => (.diverge, h1)
              else (.err (.msg "cannot index on empty slice"), h1)
      | .range k frm tob =>
          match (if 0 < k.length then get_key_h fuel h obj k else (.ok obj, h)) with
          | (.err e, h1) => (.err e, h1)
          | (.panicked m, h1) => (.panicked m, h1)
          | (.diverge, h1) => (.diverge, h1)
          | (.ok obj1, h1) =>
              match get_range_h h1 obj1 frm tob with
              | (.ok r, h2) => lookupLoop_h rxc fuel h2 rootA r rest
              | (.err e, h2) => (.err e, h2)
              | (.panicked m, h2) => (.panicked m, h2)
              | (.diverge, h2) => (.diverge, h2)
      | .filter k clause =>
          match get_key_h fuel h obj k with
          | (.err e, h1) => (.err e, h1)
          | (.panicked m, h1) => (.panicked m, h1)
          | (.diverge, h1) => (.diverge, h1)
          | (.ok obj1, h1) =>
              match get_filtered_h rxc fuel h1 obj1 rootA clause with
              | (.ok r, h2) => lookupLoop_h rxc fuel h2 rootA r rest
              | (.err e, h2) => (.err e, h2)
              | (.panicked m, h2) => (.panicked m, h2)
              | (.diverge, h2) => (.diverge, h2)
      | .expr k e =>
          match lookupExpression_h fuel h obj rootA k e with
          | (.ok r, h1) => lookupLoop_h rxc fuel h1 rootA r rest
          | (.err e2, h1) => (.err e2, h1)
          | (.panicked m, h1) => (.panicked m, h1)
          | (.diverge, h1) => (.diverge, h1)
      | .scan => (.ok obj, h)
      | .root => (.err (.msg "expression don't support in filter"), h)

/-- `Compiled.Lookup` over the heap. -/
def Lookup_h (rxc : String → Option (String → Bool)) (fuel : Nat) (h : Heap) (rootA : Addr)
    (steps : List Step) : GoResult Addr × Heap :=
  lookupLoop_h rxc fuel h rootA rootA steps

/-- `stepToPath(s)`: the path text `Set` rebuilds for broadcasting a final
key step over an array. -/
def stepToPath (s : Step) : String :=
  match s with
  | .key k (some sub) => "$." ++ k ++ "[" ++ String.mk [quoteChar] ++ sub ++ String.mk [quoteChar] ++ "]"
  | .key k none => "$." ++ k
  | _ => "$"

/-- The `key` field of a step (`step.key` in the Go record). -/
def Step.keyOf : Step → String
  | .root => "$"
  | .scan => "*"
  | .key k _ => k
  | .idx k _ => k
  | .range k _ _ => k
  | .filter k _ => k
  | .expr k _ => k

/-- Is the error tolerated by `Set`'s traversal (`NotExist` or
`ErrGetFromNullObj`)? -/
def tolerated : JErr → Bool
  | .notExist _ => true
  | .getFromNull => true
  | .msg _ => false

/-- The guarded key lookup done by `Lookup`'s and `Set`'s idx cases: Go only
calls `get_key` when the token carries a nonempty key before the bracket. -/
def get_key_if (fuel : Nat) (h : Heap) (obj : Addr) (k : String) : GoResult Addr × Heap :=
  if 0 < k.length then get_key_h fuel h obj k else (.ok obj, h)

mutual

/-- Embedding of `Set(rootObj, path, value)` over the heap: compile the
path, walk all steps tracking the parent and child addresses, then perform
the terminal write. Fuel bounds the broadcast recursion (Go recurses through
`Set` on every array element). An empty compiled step list (path `$`)
panics on `c.steps[-1]`. -/
def SetGo (rxc : String → Option (String → Bool)) : Nat → Heap → Addr → String → Addr → GoResult Unit × Heap
  | 0, h, _, _, _ => (.diverge, h)
  | fuel + 1, h, rootA, path, v =>
      match Compile path with
      | .err e => (.err e, h)
      | .panicked m => (.panicked m, h)
      | .diverge => (.diverge, h)
      | .ok steps =>
          match steps with
          | [] => (.panicked "index out of range", h)
          | s :: rest => SetLoop rxc fuel h rootA rootA (some rootA) none s rest v
termination_by fuel _ _ _ _ => (fuel, 0, 0)

/-- One iteration of `Set`'s traversal loop plus the continuation: state is
the parent address, the child (`none` is the Go nil interface, never
dereferenced), and the last `lookupKey` error. On the last step control
passes to `SetTerminal` with the in-iteration parent; otherwise the next
parent is the current child. Key-step errors other than `NotExist` and
`ErrGetFromNullObj` abort; tolerated errors abort with `incorrect set path`
unless on the last step. -/
def SetLoop (rxc : String → Option (String → Bool)) : Nat → Heap → Addr → Addr → Option Addr → Option JErr → Step → List Step → Addr → GoResult Unit × Heap
  | fuel, h, rootA, parent, child, lastErr, s, rest, v =>
      match s with
      | .key k sub =>
          match lookupKey_h fuel h parent k sub with
          | (.panicked m, h1) => (.panicked m, h1)
          | (.diverge, h1) => (.diverge, h1)
          | (.err e, h1) => (.err e, h1)
          | (.ok ((par1, childOpt), errOpt), h1) =>
              match errOpt with
              | some e =>
                  if tolerated e then
                    match rest with
                    | [] => SetTerminal rxc fuel h1 rootA par1 s (some e) v
                    | _ :: _ => (.err (.msg "incorrect set path"), h1)
                  else (.err e, h1)
              | none =>
                  match rest with
                  | [] => SetTerminal rxc fuel h1 rootA par1 s none v
                  | s2 :: rest2 =>
                      match childOpt with
                      | some c => SetLoop rxc fuel h1 rootA c (some c) none s2 rest2 v
                      | none => (.panicked "nil child", h1)
      | .idx k idxs =>
          match get_key_if fuel h parent k with
          | (.err e, h1) => (.err e, h1)
          | (.panicked m, h1) => (.panicked m, h1)
          | (.diverge, h1) => (.diverge, h1)
          | (.ok p1, h1) =>
              if idxs.length = 1 then
                match get_idx_h h1 p1 (idxs.getD 0 0) with
                | .err e => (.err e, h1)
                | .panicked m => (.panicked m, h1)
                | .diverge => (.diverge, h1)
                | .ok c1 =>
                    match rest with
                    | [] => SetTerminal rxc fuel h1 rootA p1 s lastErr v
                    | s2 :: rest2 => SetLoop rxc fuel h1 rootA c1 (some c1) lastErr s2 rest2 v
              else
                match rest with
                | [] => SetTerminal rxc fuel h1 rootA p1 s lastErr v
                | s2 :: rest2 =>
                    match child with
                    | some c => SetLoop rxc fuel h1 rootA c child lastErr s2 rest2 v
                    | none => (.panicked "nil parent", h1)
      | .filter k clause =>
          match get_key_h fuel h parent k with
          | (.err e, h1) => (.err e, h1)
          | (.panicked m, h1) => (.panicked m, h1)
          | (.diverge, h1) => (.diverge, h1)
          | (.ok c0, h1) =>
              match get_filtered_h rxc fuel h1 c0 rootA clause with
              | (.err e, h2) => (.err e, h2)
              | (.panicked m, h2) => (.panicked m, h2)
              | (.diverge, h2) => (.diverge, h2)
              | (.ok c1, h2) =>
                  match rest with
                  | [] => SetTerminal rxc fuel h2 rootA parent s lastErr v
                  | s2 :: rest2 => SetLoop rxc fuel h2 rootA c1 (some c1) lastErr s2 rest2 v
      | .expr k e =>
          match lookupExpression_h fuel h parent rootA k e with
          | (.err e2, h1) => (.err e2, h1)
          | (.panicked m, h1) => (.panicked m, h1)
          | (.diverge, h1) => (.diverge, h1)
          | (.ok c1, h1) =>
              match rest with
              | [] => SetTerminal rxc fuel h1 rootA parent s lastErr v
              | s2 :: rest2 => SetLoop rxc fuel h1 rootA c1 (some c1) lastErr s2 rest2 v
      | _ => (.err (.msg (s.keyOf ++ " expression don't support in set")), h)
termination_by fuel _ _ _ _ _ _ rest _ => (fuel, 3, rest.length + 1)

/-- The terminal write of `Set`. Object parent: write the value at the plain
key, or wrap it in a single-entry object for a quoted subkey — unless the
traversal's last error was `NotExist` for a different key, in which case the
value goes directly under the missing key. Array parent: replace the indexed
element in place (`reflect` panics out of range), or broadcast a final key
step to every element via a recursive `Set` on the rebuilt single-step path.
Any other final step over an array falls through Go's switch and reports
success without writing. Scalar or nil parents cannot be written. -/
def SetTerminal (rxc : String → Option (String → Bool)) : Nat → Heap → Addr → Addr → Step → Option JErr → Addr → GoResult Unit × Heap
  | fuel, h, _, parent, last, lastErr, v =>
      match h.get parent with
      | none => (.panicked "invalid address", h)
      | some (.obj fs) =>
          match last with
          | .key k (some sub) =>
              match lastErr with
              | some (.notExist ne) =>
                  if ne ≠ k then (.ok (), h.set parent (.obj (setFieldN fs ne v)))
                  else
                    let (nv, h1) := h.alloc (.obj [(sub, v)])
                    (.ok (), h1.set parent (.obj (setFieldN fs k nv)))
              | _ =>
                  let (nv, h1) := h.alloc (.obj [(sub, v)])
                  (.ok (), h1.set parent (.obj (setFieldN fs k nv)))
          | _ => (.ok (), h.set parent (.obj (setFieldN fs last.keyOf v)))
      | some (.arr es) =>
          match last with
          | .idx _ idxs =>
              match idxs with
              | [] => (.panicked "index out of range", h)
              | i :: _ =>
                  if 0 ≤ i ∧ i < (es.length : Int) then
                    (.ok (), h.set parent (.arr (es.set i.toNat v)))
                  else (.panicked "index out of range", h)
          | .key _ _ => SetBroadcast rxc fuel h es (stepToPath last) v
          | _ => (.ok (), h)
      | some _ => (.err (.msg "could not set value at path"), h)
termination_by fuel _ _ _ _ _ _ => (fuel, 2, 0)

/-- The broadcast loop of `Set`'s terminal array/key case: apply `Set` with
the rebuilt single-step path to every element, aborting on the first
error. -/
def SetBroadcast (rxc : String → Option (String → Bool)) : Nat → Heap → List Addr → String → Addr → GoResult Unit × Heap
  | _, h, [], _, _ => (.ok (), h)
  | fuel, h, e :: rest, path, v =>
      match SetGo rxc fuel h e path v with
      | (.ok _, h1) => SetBroadcast rxc fuel h1 rest path v
      | r => r
termination_by fuel _ es _ _ => (fuel, 1, es.length + 1)

end

/-- Heap extension: every allocated cell keeps its node; fresh cells may
appear above the old watermark. This is the sense in which a read-only
evaluation leaves the tree in place: the cells holding the root's objects,
arrays, and scalars are bit-for-bit unchanged. -/
def Heap.Ext (h h2 : Heap) : Prop :=
  h.next ≤ h2.next ∧ ∀ a n, h.get a = some n → h2.get a = some n

/-- A purely-object walk: the addresses visited while resolving a chain of
keys, each hop going through an object node that carries the key. Used to
state the round-trip law for `Set`. -/
def walkObjs (h : Heap) : Addr → List String → Option (List Addr)
  | a, [] => some [a]
  | a, k :: ks =>
      match h.get a with
      | some (.obj fs) =>
          match lookupFieldN fs k with
          | some b => (walkObjs h b ks).map (a :: ·)
          | none => none
      | _ => none

/-- `Set`'s traversal loop applied to a whole step list (the loop of
`SetLoop` re-expressed over the list; the empty list is unreachable from
`SetGo`, which pattern-matches it away). -/
def SetLoopL (rxc : String → Option (String → Bool)) (fuel : Nat) (h : Heap)
    (rootA parent : Addr) (child : Option Addr) (lastErr : Option JErr)
    (steps : List Step) (v : Addr) : GoResult Unit × Heap :=
  match steps with
  | [] => (.panicked "index out of range", h)
  | s :: rest => SetLoop rxc fuel h rootA parent child lastErr s rest v

/-- The heap for the root `{"a": [{"b": 1}]}` together with a boxed `5` at
address `4`: cell 0 is the root object, 1 the array, 2 the inner object,
3 the old value of `b`. -/
def c1CounterHeap : Heap :=
  ⟨[(0, .obj [("a", 1)]), (1, .arr [2]), (2, .obj [("b", 3)]), (3, .num 1), (4, .num 5)], 5⟩

/-- The heap for the root `{"x": {"y": 1}}` together with a boxed `5` at
address `3`. -/
def c1WitnessHeap : Heap :=
  ⟨[(0, .obj [("x", 1)]), (1, .obj [("y", 2)]), (2, .num 1), (3, .num 5)], 4⟩

/-- The heap left by `Set(c1CounterHeap root, "$.a.b", 5)`: the key lookup
for `b` flattened the array into a fresh cell `5`, and the broadcast wrote
the inner object's `b` to the boxed `5` at address `4`. -/
def c1CounterAfter : Heap :=
  ⟨[(5, .arr [3]), (0, .obj [("a", 1)]), (1, .arr [2]), (2, .obj [("b", 4)]),
    (3, .num 1), (4, .num 5)], 6⟩

/-- The heap left by the subsequent `Lookup` of `$.a.b`: the key lookup for
`b` flattens the array again, into a fresh cell `6` holding the one-element
array `[5]` that `Lookup` returns. -/
def c1CounterFinal : Heap :=
  ⟨(6, .arr [4]) :: c1CounterAfter.mem, 7⟩

/-! ### Basic lemmas -/

/-- A successful association-list lookup exhibits a member. -/
theorem lookup_mem : ∀ (l : List (Addr × Node)) (a : Addr) (n : Node),
    l.lookup a = some n → (a, n) ∈ l := by
  intro l
  induction l with
  | nil => intro a n hl; simp [List.lookup] at hl
  | cons p rest ih =>
      intro a n hl
      rcases p with ⟨b, m⟩
      rw [List.lookup] at hl
      by_cases hab : a = b
      · subst hab
        simp at hl
        subst hl
        exact List.mem_cons_self _ _
      · have : (a == b) = false := by simp [hab]
        rw [this] at hl
        exact List.mem_cons_of_mem _ (ih a n hl)

/-- Heap extension is reflexive. -/
theorem Heap.Ext.refl (h : Heap) : h.Ext h :=
  ⟨Nat.le_refl _, fun _ _ hn => hn⟩

/-- Heap extension is transitive. -/
theorem Heap.Ext.trans {h1 h2 h3 : Heap} (e12 : h1.Ext h2) (e23 : h2.Ext h3) : h1.Ext h3 :=
  ⟨Nat.le_trans e12.1 e23.1, fun a n hn => e23.2 a n (e12.2 a n hn)⟩

/-- Allocation preserves well-formedness and extends the heap. -/
theorem alloc_pres (h : Heap) (n : Node) (hw : h.WF) :
    (h.alloc n).2.WF ∧ h.Ext (h.alloc n).2 := by
  constructor
  · intro p hp
    have hp2 : p = (h.next, n) ∨ p ∈ h.mem := by
      simpa [Heap.alloc] using hp
    show p.1 < (h.alloc n).2.next
    have hnx : (h.alloc n).2.next = h.next + 1 := rfl
    rw [hnx]
    rcases hp2 with hp2 | hp2
    · rw [hp2]; exact Nat.lt_succ_self _
    · exact Nat.lt_succ_of_lt (hw p hp2)
  · refine ⟨Nat.le_succ _, ?_⟩
    intro a m hm
    have hmem := lookup_mem _ _ _ hm
    have hlt : a < h.next := hw (a, m) hmem
    show List.lookup a ((h.next, n) :: h.mem) = some m
    rw [List.lookup]
    have hne : (a == h.next) = false := beq_false_of_ne (Nat.ne_of_lt hlt)
    rw [hne]
    exact hm

/-- Reduction of `GoResult.bind` on a normal result. -/
@[simp] theorem GoResult.bind_ok (a : α) (f : α → GoResult β) : GoResult.bind (.ok a) f = f a := rfl

/-- Reduction of `GoResult.bind` on an error. -/
@[simp] theorem GoResult.bind_err (e : JErr) (f : α → GoResult β) : GoResult.bind (.err e) f = .err e := rfl

/-- Reduction of `GoResult.bind` on a panic. -/
@[simp] theorem GoResult.bind_panicked (m : String) (f : α → GoResult β) : GoResult.bind (.panicked m) f = .panicked m := rfl

/-- Reduction of `GoResult.bind` on divergence. -/
@[simp] theorem GoResult.bind_diverge (f : α → GoResult β) : GoResult.bind .diverge f = .diverge := rfl

/-- The element loop of `get_key`'s array case keeps, in order, exactly the
successful lookups. -/
theorem get_key_all_eq (elems : List Value) (key : String) :
    get_key_all elems key = elems.filterMap (fun e => (get_key e key).toOption) := by
  induction elems with
  | nil => simp [get_key_all]
  | cons e rest ih =>
      cases h : get_key e key <;>
        simp [get_key_all, h, ih, Except.toOption]

/-- Composition of preservation steps. -/
theorem pres_comp {h h1 h2 : Heap} (p1 : h1.WF ∧ h.Ext h1)
    (p2 : h1.WF → h2.WF ∧ h1.Ext h2) : h2.WF ∧ h.Ext h2 :=
  ⟨(p2 p1.1).1, p1.2.trans (p2 p1.1).2⟩

/-- Transport a preservation fact along an equation naming the result
pair. -/
theorem pres_eq {h : Heap} {β : Type} {X : β × Heap} {r : β} {h1 : Heap}
    (heq : X = (r, h1)) (hp : X.2.WF ∧ h.Ext X.2) : h1.WF ∧ h.Ext h1 := by
  rw [heq] at hp
  exact hp

mutual

/-- Allocating a value tree preserves well-formedness and extends the
heap. -/
theorem allocVal_pres (h : Heap) (v : Value) (hw : h.WF) :
    (allocVal h v).2.WF ∧ h.Ext (allocVal h v).2 := by
  cases v with
  | null => exact alloc_pres h _ hw
  | bool b => exact alloc_pres h _ hw
  | num n => exact alloc_pres h _ hw
  | str s => exact alloc_pres h _ hw
  | arr xs =>
      have p1 := allocVals_pres h xs hw
      simp only [allocVal]
      cases hav : allocVals h xs with
      | mk as h2 =>
          rw [hav] at p1
          exact pres_comp p1 (fun hw2 => alloc_pres h2 (.arr as) hw2)
  | obj fs =>
      have p1 := allocFields_pres h fs hw
      simp only [allocVal]
      cases hav : allocFields h fs with
      | mk ps h2 =>
          rw [hav] at p1
          exact pres_comp p1 (fun hw2 => alloc_pres h2 (.obj ps) hw2)
termination_by (sizeOf v, 0)

/-- Allocating a value list preserves well-formedness and extends the
heap. -/
theorem allocVals_pres (h : Heap) (l : List Value) (hw : h.WF) :
    (allocVals h l).2.WF ∧ h.Ext (allocVals h l).2 := by
  cases l with
  | nil => exact ⟨hw, Heap.Ext.refl h⟩
  | cons x rest =>
      simp only [allocVals]
      cases hv : allocVal h x with
      | mk a h1 =>
          have p1 := allocVal_pres h x hw
          rw [hv] at p1
          cases hr : allocVals h1 rest with
          | mk as h2 =>
              have p2 := fun hw1 => allocVals_pres h1 rest hw1
              refine pres_comp p1 (fun hw1 => ?_)
              have := p2 hw1
              rw [hr] at this
              exact this
termination_by (sizeOf l, 1)

/-- Allocating object fields preserves well-formedness and extends the
heap. -/
theorem allocFields_pres (h : Heap) (l : List (String × Value)) (hw : h.WF) :
    (allocFields h l).2.WF ∧ h.Ext (allocFields h l).2 := by
  cases l with
  | nil => exact ⟨hw, Heap.Ext.refl h⟩
  | cons p rest =>
      cases p with
      | mk k x =>
          simp only [allocFields]
          cases hv : allocVal h x with
          | mk a h1 =>
              have p1 := allocVal_pres h x hw
              rw [hv] at p1
              cases hr : allocFields h1 rest with
              | mk ps h2 =>
                  refine pres_comp p1 (fun hw1 => ?_)
                  have p2 := allocFields_pres h1 rest hw1
                  rw [hr] at p2
                  exact p2
termination_by (sizeOf l, 1)

end

mutual

/-- The heap `get_key` preserves well-formedness and extends the heap (its
only write is allocating the flattened-result array). -/
theorem get_key_h_pres (fuel : Nat) (h : Heap) (a : Addr) (key : String) (hw : h.WF) :
    (get_key_h fuel h a key).2.WF ∧ h.Ext (get_key_h fuel h a key).2 := by
  cases fuel with
  | zero =>
      simp only [get_key_h]
      exact ⟨hw, Heap.Ext.refl h⟩
  | succ fuel =>
      simp only [get_key_h]
      split
      · exact ⟨hw, Heap.Ext.refl h⟩
      · exact ⟨hw, Heap.Ext.refl h⟩
      · split
        · exact ⟨hw, Heap.Ext.refl h⟩
        · exact ⟨hw, Heap.Ext.refl h⟩
      · rename_i es _
        cases hga : get_key_all_h fuel h es key with
        | mk res h1 =>
            have p1 := get_key_all_h_pres fuel h es key hw
            rw [hga] at p1
            by_cases hres : res.isEmpty = true
            · simp only [hres, if_true]
              exact p1
            · simp only [hres, if_false]
              cases hal : h1.alloc (.arr res) with
              | mk r h2 =>
                  refine pres_comp p1 (fun hw1 => ?_)
                  have p2 := alloc_pres h1 (.arr res) hw1
                  rw [hal] at p2
                  exact p2
      · exact ⟨hw, Heap.Ext.refl h⟩
termination_by (fuel, 0)

/-- The element loop of the heap `get_key` preserves well-formedness and
extends the heap. -/
theorem get_key_all_h_pres (fuel : Nat) (h : Heap) (es : List Addr) (key : String) (hw : h.WF) :
    (get_key_all_h fuel h es key).2.WF ∧ h.Ext (get_key_all_h fuel h es key).2 := by
  cases es with
  | nil =>
      simp only [get_key_all_h]
      exact ⟨hw, Heap.Ext.refl h⟩
  | cons e rest =>
      simp only [get_key_all_h]
      split
      · rename_i v h1 heq
        have p1 := pres_eq heq (get_key_h_pres fuel h e key hw)
        cases hr : get_key_all_h fuel h1 rest key with
        | mk vs h2 =>
            refine pres_comp p1 (fun hw1 => ?_)
            exact pres_eq hr (get_key_all_h_pres fuel h1 rest key hw1)
      · rename_i r h1 hne heq
        have p1 := pres_eq heq (get_key_h_pres fuel h e key hw)
        exact pres_comp p1 (fun hw1 => get_key_all_h_pres fuel h1 rest key hw1)
termination_by (fuel, es.length + 1)

end

/-- The heap `get_range` preserves well-formedness and extends the heap. -/
theorem get_range_h_pres (h : Heap) (a : Addr) (frm tob : Option Int) (hw : h.WF) :
    (get_range_h h a frm tob).2.WF ∧ h.Ext (get_range_h h a frm tob).2 := by
  simp only [get_range_h]
  split
  · exact ⟨hw, Heap.Ext.refl h⟩
  · exact ⟨hw, Heap.Ext.refl h⟩
  · split_ifs <;> try exact ⟨hw, Heap.Ext.refl h⟩
    exact alloc_pres h _ hw
  · exact ⟨hw, Heap.Ext.refl h⟩

/-- The heap `get_filtered` preserves well-formedness and extends the
heap. -/
theorem get_filtered_h_pres (rxc : String → Option (String → Bool)) (fuel : Nat) (h : Heap)
    (a rootA : Addr) (clause : String) (hw : h.WF) :
    (get_filtered_h rxc fuel h a rootA clause).2.WF ∧ h.Ext (get_filtered_h rxc fuel h a rootA clause).2 := by
  simp only [get_filtered_h]
  split
  · split
    · rename_i lst _
      exact allocVal_pres h (.arr lst) hw
    · exact ⟨hw, Heap.Ext.refl h⟩
    · exact ⟨hw, Heap.Ext.refl h⟩
    · exact ⟨hw, Heap.Ext.refl h⟩
  · exact ⟨hw, Heap.Ext.refl h⟩

/-- The heap `lookupKey` preserves well-formedness and extends the heap. -/
theorem lookupKey_h_pres (fuel : Nat) (h : Heap) (a : Addr) (k : String) (args : Option String) (hw : h.WF) :
    (lookupKey_h fuel h a k args).2.WF ∧ h.Ext (lookupKey_h fuel h a k args).2 := by
  simp only [lookupKey_h]
  by_cases hswap : (k == "") = true ∧ args.getD "" ≠ ""
  · simp only [if_pos hswap]
    simp only [show (("" : String) ≠ "") = False from by simp, if_false]
    split
    · rename_i m h1 heq
      exact pres_eq heq (get_key_h_pres fuel h a _ hw)
    · rename_i h1 heq
      exact pres_eq heq (get_key_h_pres fuel h a _ hw)
    · rename_i e h1 heq
      exact pres_eq heq (get_key_h_pres fuel h a _ hw)
    · rename_i child h1 heq
      exact pres_eq heq (get_key_h_pres fuel h a _ hw)
  · simp only [if_neg hswap]
    split
    · rename_i m h1 heq
      exact pres_eq heq (get_key_h_pres fuel h a k hw)
    · rename_i h1 heq
      exact pres_eq heq (get_key_h_pres fuel h a k hw)
    · rename_i e h1 heq
      exact pres_eq heq (get_key_h_pres fuel h a k hw)
    · rename_i child h1 heq
      have p1 := pres_eq heq (get_key_h_pres fuel h a k hw)
      by_cases hsub : args.getD "" ≠ ""
      · simp only [if_pos hsub]
        split
        all_goals
          rename_i heq2
          refine pres_comp p1 (fun hw1 => ?_)
          exact pres_eq heq2 (get_key_h_pres fuel h1 child _ hw1)
      · simp only [if_neg hsub]
        exact p1

/-- The heap `lookupExpression` preserves well-formedness and extends the
heap. -/
theorem lookupExpression_h_pres (fuel : Nat) (h : Heap) (a rootA : Addr) (k e : String) (hw : h.WF) :
    (lookupExpression_h fuel h a rootA k e).2.WF ∧ h.Ext (lookupExpression_h fuel h a rootA k e).2 := by
  simp only [lookupExpression_h]
  split
  · rename_i e2 h1 heq
    exact pres_eq heq (get_key_h_pres fuel h a k hw)
  · rename_i m h1 heq
    exact pres_eq heq (get_key_h_pres fuel h a k hw)
  · rename_i h1 heq
    exact pres_eq heq (get_key_h_pres fuel h a k hw)
  · rename_i obj1 h1 heq
    have p1 := pres_eq heq (get_key_h_pres fuel h a k hw)
    split
    · rename_i s _
      refine pres_comp p1 (fun hw1 => ?_)
      exact get_key_h_pres fuel h1 obj1 s hw1
    · exact p1
    · exact p1
    · exact p1
    · exact p1
    · exact p1

/-- The optional leading-key resolution of index/range steps preserves
well-formedness and extends the heap. -/
theorem key_opt_pres (fuel : Nat) (h : Heap) (obj : Addr) (k : String) (hw : h.WF) :
    (if 0 < k.length then get_key_h fuel h obj k else ((.ok obj : GoResult Addr), h)).2.WF ∧
    h.Ext (if 0 < k.length then get_key_h fuel h obj k else ((.ok obj : GoResult Addr), h)).2 := by
  split_ifs with hk
  · exact get_key_h_pres fuel h obj k hw
  · exact ⟨hw, Heap.Ext.refl h⟩

/-- The step loop of the heap `Lookup` preserves well-formedness and
extends the heap: it reads and allocates, but never writes an existing
cell. -/
theorem lookupLoop_h_pres (rxc : String → Option (String → Bool)) (fuel : Nat) :
    ∀ (steps : List Step) (h : Heap) (rootA obj : Addr), h.WF →
      (lookupLoop_h rxc fuel h rootA obj steps).2.WF ∧
      h.Ext (lookupLoop_h rxc fuel h rootA obj steps).2 := by
  intro steps
  induction steps with
  | nil =>
      intro h rootA obj hw
      simp only [lookupLoop_h]
      exact ⟨hw, Heap.Ext.refl h⟩
  | cons s rest ih =>
      intro h rootA obj hw
      cases s with
      | key k sub =>
          simp only [lookupLoop_h]
          split
          · rename_i m h1 heq
            exact pres_eq heq (lookupKey_h_pres fuel h obj k sub hw)
          · rename_i h1 heq
            exact pres_eq heq (lookupKey_h_pres fuel h obj k sub hw)
          · rename_i e h1 heq
            exact pres_eq heq (lookupKey_h_pres fuel h obj k sub hw)
          · rename_i pc e h1 heq
            exact pres_eq heq (lookupKey_h_pres fuel h obj k sub hw)
          · rename_i pr child h1 heq
            refine pres_comp (pres_eq heq (lookupKey_h_pres fuel h obj k sub hw)) (fun hw1 => ?_)
            exact ih _ _ _ hw1
          · rename_i pr h1 heq
            exact pres_eq heq (lookupKey_h_pres fuel h obj k sub hw)
      | idx k idxs =>
          simp only [lookupLoop_h]
          split
          · rename_i e h1 heq
            exact pres_eq heq (key_opt_pres fuel h obj k hw)
          · rename_i m h1 heq
            exact pres_eq heq (key_opt_pres fuel h obj k hw)
          · rename_i h1 heq
            exact pres_eq heq (key_opt_pres fuel h obj k hw)
          · rename_i obj1 h1 heq
            have p1 := pres_eq heq (key_opt_pres fuel h obj k hw)
            by_cases hl : 1 < idxs.length
            · simp only [if_pos hl]
              split
              · rename_i res heq2
                cases hal : h1.alloc (.arr res) with
                | mk r h2 =>
                    refine pres_comp p1 (fun hw1 => ?_)
                    refine pres_comp (pres_eq hal (alloc_pres h1 (.arr res) hw1)) (fun hw2 => ?_)
                    exact ih _ _ _ hw2
              · exact p1
              · exact p1
              · exact p1
            · simp only [if_neg hl]
              by_cases h1l : idxs.length = 1
              · simp only [if_pos h1l]
                split
                · refine pres_comp p1 (fun hw1 => ?_)
                  exact ih _ _ _ hw1
                · exact p1
                · exact p1
                · exact p1
              · simp only [if_neg h1l]
                exact p1
      | range k frm tob =>
          simp only [lookupLoop_h]
          split
          · rename_i e h1 heq
            exact pres_eq heq (key_opt_pres fuel h obj k hw)
          · rename_i m h1 heq
            exact pres_eq heq (key_opt_pres fuel h obj k hw)
          · rename_i h1 heq
            exact pres_eq heq (key_opt_pres fuel h obj k hw)
          · rename_i obj1 h1 heq
            have p1 := pres_eq heq (key_opt_pres fuel h obj k hw)
            split
            · rename_i r h2 heq2
              refine pres_comp p1 (fun hw1 => ?_)
              refine pres_comp (pres_eq heq2 (get_range_h_pres h1 obj1 frm tob hw1)) (fun hw2 => ?_)
              exact ih _ _ _ hw2
            · rename_i e h2 heq2
              exact pres_comp p1 (fun hw1 => pres_eq heq2 (get_range_h_pres h1 obj1 frm tob hw1))
            · rename_i m h2 heq2
              exact pres_comp p1 (fun hw1 => pres_eq heq2 (get_range_h_pres h1 obj1 frm tob hw1))
            · rename_i h2 heq2
              exact pres_comp p1 (fun hw1 => pres_eq heq2 (get_range_h_pres h1 obj1 frm tob hw1))
      | filter k clause =>
          simp only [lookupLoop_h]
          split
          · rename_i e h1 heq
            exact pres_eq heq (get_key_h_pres fuel h obj k hw)
          · rename_i m h1 heq
            exact pres_eq heq (get_key_h_pres fuel h obj k hw)
          · rename_i h1 heq
            exact pres_eq heq (get_key_h_pres fuel h obj k hw)
          · rename_i obj1 h1 heq
            have p1 := pres_eq heq (get_key_h_pres fuel h obj k hw)
            split
            · rename_i r h2 heq2
              refine pres_comp p1 (fun hw1 => ?_)
              refine pres_comp (pres_eq heq2 (get_filtered_h_pres rxc fuel h1 obj1 rootA clause hw1)) (fun hw2 => ?_)
              exact ih _ _ _ hw2
            · rename_i e h2 heq2
              exact pres_comp p1 (fun hw1 => pres_eq heq2 (get_filtered_h_pres rxc fuel h1 obj1 rootA clause hw1))
            · rename_i m h2 heq2
              exact pres_comp p1 (fun hw1 => pres_eq heq2 (get_filtered_h_pres rxc fuel h1 obj1 rootA clause hw1))
            · rename_i h2 heq2
              exact pres_comp p1 (fun hw1 => pres_eq heq2 (get_filtered_h_pres rxc fuel h1 obj1 rootA clause hw1))
      | expr k e =>
          simp only [lookupLoop_h]
          split
          · rename_i r h1 heq
            refine pres_comp (pres_eq heq (lookupExpression_h_pres fuel h obj rootA k e hw)) (fun hw1 => ?_)
            exact ih _ _ _ hw1
          · rename_i e2 h1 heq
            exact pres_eq heq (lookupExpression_h_pres fuel h obj rootA k e hw)
          · rename_i m h1 heq
            exact pres_eq heq (lookupExpression_h_pres fuel h obj rootA k e hw)
          · rename_i h1 heq
            exact pres_eq heq (lookupExpression_h_pres fuel h obj rootA k e hw)
      | scan =>
          simp only [lookupLoop_h]
          exact ⟨hw, Heap.Ext.refl h⟩
      | root =>
          simp only [lookupLoop_h]
          exact ⟨hw, Heap.Ext.refl h⟩

/-! ### Claim theorems -/

/-- C2. A Key step on an array maps the key lookup across every element in
order, keeps exactly the successful results, and fails with `NotExist`
carrying the key when no element's lookup succeeded. -/
theorem c2_key_step_over_array (elems : List Value) (key : String) :
    (elems.filterMap (fun e => (get_key e key).toOption) = [] →
      get_key (.arr elems) key = .error (.notExist key)) ∧
    (elems.filterMap (fun e => (get_key e key).toOption) ≠ [] →
      get_key (.arr elems) key = .ok (.arr (elems.filterMap (fun e => (get_key e key).toOption)))) := by
  constructor <;> intro h <;> simp [get_key, get_key_all_eq, h]

/-- Witness for C2 at a concrete array where no element carries the key. -/
theorem c2_witness : get_key (.arr [.num 2]) "a" = .error (.notExist "a") :=
  (c2_key_step_over_array [.num 2] "a").1 rfl

/-- C3. Index `-1` selects the same element as `len-1`; index `-(len+1)` is
a range error; and an index is an error exactly when it lies outside the
valid range after counting negative indices from the end (never clamped). -/
theorem c3_negative_index_law (xs : List Value) :
    get_idx (.arr xs) (-1) = get_idx (.arr xs) ((xs.length : Int) - 1) ∧
    (get_idx (.arr xs) (-((xs.length : Int) + 1))).isErr = true ∧
    (∀ i : Int, (get_idx (.arr xs) i).isErr = true ↔
      ((xs.length : Int) ≤ i ∨ (xs.length : Int) + i < 0)) := by
  refine ⟨?_, ?_, ?_⟩
  · by_cases h0 : xs.length = 0
    · simp [get_idx, h0]
    · simp only [get_idx]
      rw [if_neg (show ¬ (0 : Int) ≤ -1 by omega)]
      rw [if_pos (show (0 : Int) ≤ (xs.length : Int) - 1 by omega)]
      rw [if_neg (show ¬ (xs.length : Int) ≤ (xs.length : Int) - 1 by omega)]
      rw [if_neg (show ¬ (xs.length : Int) + -1 < 0 by omega)]
      congr 2
  · simp only [get_idx]
    rw [if_neg (show ¬ (0 : Int) ≤ -((xs.length : Int) + 1) by omega)]
    rw [if_pos (show (xs.length : Int) + -((xs.length : Int) + 1) < 0 by omega)]
    rfl
  · intro i
    simp only [get_idx]
    split_ifs <;> simp [GoResult.isErr] <;> omega

/-- Witness for C3 at a one-element array and out-of-range index `5`. -/
theorem c3_witness :
    get_idx (.arr [.num 7]) (-1) = get_idx (.arr [.num 7]) (([Value.num 7].length : Int) - 1) ∧
    (get_idx (.arr [.num 7]) 5).isErr = true :=
  ⟨(c3_negative_index_law [.num 7]).1,
   ((c3_negative_index_law [.num 7]).2.2 5).mpr (by norm_num)⟩

/-- C4 counterexample: on the empty array, the slice with both bounds unset
is a range error, not the array itself — the translated from-bound `0` hits
the `_frm >= length` check. -/
theorem c4_counterexample :
    get_range (.arr ([] : List Value)) none none =
      .err (.msg "index [from] out of range: len: 0, from: 0") := rfl

/-- C4 amended. For every nonempty array, the slice with both bounds unset
and the slice `(0, len-1)` both return the array itself; for every array
(empty included), a translated bound outside `[0, len]` is a range error.
For the empty array the two identity slices are range errors
(`c4_counterexample`). -/
theorem c4_slice_laws (xs : List Value) :
    (xs ≠ [] →
      get_range (.arr xs) none none = .ok (.arr xs) ∧
      get_range (.arr xs) (some 0) (some ((xs.length : Int) - 1)) = .ok (.arr xs)) ∧
    (∀ frm tob : Option Int,
      (range_frm (xs.length : Int) frm < 0 ∨ (xs.length : Int) < range_frm (xs.length : Int) frm ∨
       range_to (xs.length : Int) tob < 0 ∨ (xs.length : Int) < range_to (xs.length : Int) tob) →
      (get_range (.arr xs) frm tob).isErr = true) := by
  constructor
  · intro hne
    have hlen : 1 ≤ (xs.length : Int) := by
      have := List.length_pos.mpr hne
      omega
    have hf : range_frm (xs.length : Int) none = 0 := by simp [range_frm]
    have hf2 : range_frm (xs.length : Int) (some 0) = 0 := by simp [range_frm]
    have ht : range_to (xs.length : Int) none = (xs.length : Int) := by
      simp only [range_to, Option.getD]
      rw [if_neg (by omega)]
      omega
    have ht2 : range_to (xs.length : Int) (some ((xs.length : Int) - 1)) = (xs.length : Int) := by
      simp only [range_to, Option.getD]
      rw [if_neg (by omega)]
      omega
    constructor <;>
    · simp only [get_range, hf, hf2, ht, ht2]
      rw [if_neg (by omega), if_neg (by omega), if_neg (by omega)]
      simp
  · intro frm tob hout
    simp only [get_range]
    split_ifs with h1 h2 <;> first
      | rfl
      | (exfalso; omega)

/-- Witness for C4 at a one-element array and an out-of-range from-bound. -/
theorem c4_witness :
    get_range (.arr [.num 1]) none none = .ok (.arr [.num 1]) ∧
    (get_range (.arr [.num 1]) (some 5) none).isErr = true :=
  ⟨((c4_slice_laws [.num 1]).1 (List.cons_ne_nil _ _)).1,
   (c4_slice_laws [.num 1]).2 (some 5) none (by decide)⟩

/-- C7. A non-numeric, non-empty from side in a slice token does not fail
compilation: the Go code reuses one `err` variable for both bounds, so the
from-side parse error is overwritten when the to side is numeric or empty
and the bound silently becomes unset. A non-numeric non-empty to side does
fail, as the claim expects. -/
theorem c7_slice_from_side_error_lost :
    Compile "$[abc:2]" = .ok [.range "" none (some 2)] ∧
    Compile "$[abc:]" = .ok [.range "" none none] ∧
    parse_token "[1:xyz]" = .err (.msg "invalid syntax: xyz") :=
  ⟨by decide, by decide, by decide⟩

/-- C8 counterexample: a path whose filter clause has four space-separated
parts compiles successfully — `parse_token` only extracts the clause text
and checks its `@.`/`$.` prefix; the stage limit lives in `parse_filter`,
which only evaluation reaches. -/
theorem c8_counterexample :
    Compile "$.book[?(@.a b c d)]" = .ok [.filter "book" "@.a b c d"] := by decide

/-- C8 amended. The filter-clause stage limit is an evaluation-time error:
the path compiles, and `get_filtered` fails on the clause for every current
object, root, and regular-expression engine. -/
theorem c8_stage_limit_is_eval_time :
    Compile "$.book[?(@.a b c d)]" = .ok [.filter "book" "@.a b c d"] ∧
    ∀ (rxc : String → Option (String → Bool)) (obj root : Value),
      (get_filtered rxc obj root "@.a b c d").isErr = true := by
  refine ⟨by decide, ?_⟩
  intro rxc obj root
  have h : parse_filter "@.a b c d" = .error (.msg "invalid char at 7:  ") := rfl
  simp [get_filtered, h, GoResult.isErr]

/-- C5. Compilation of the empty path panics: `tokenize("")` returns an
empty token list without error, and `Compile` then reads `tokens[0]` out of
range. Every nonempty path whose first character is neither `$` nor `@`
is rejected with the syntax error, as the claim states. -/
theorem c5_compile_empty_path_panics :
    Compile "" = .panicked "index out of range" ∧
    tokenize "" = .ok ([] : List String) ∧
    (∀ (c : Char) (cs : List Char), ¬ c = dollarChar → ¬ c = atChar →
      Compile (String.mk (c :: cs)) = .err (.msg "should start with $")) := by
  refine ⟨by decide, by decide, ?_⟩
  intro c cs h1 h2
  simp [Compile, tokenize, String.toList, h1, h2]

/-- Witness for C5 at the one-character path `n`. -/
theorem c5_witness :
    Compile (String.mk [Char.ofNat 110]) = .err (.msg "should start with $") :=
  c5_compile_empty_path_panics.2.2 (Char.ofNat 110) [] (by decide) (by decide)

/-- Helper for C10: once the traversal has produced a value, a `scan` step
placed next returns that value and every later step is ignored; a `scan`
inside the prefix already short-circuits the same way. -/
theorem lookupSteps_scan_short_circuit
    (rxc : String → Option (String → Bool)) (root : Value) :
    ∀ (pre : List Step) (v w : Value) (post : List Step),
      lookupSteps rxc root v pre = .ok w →
      lookupSteps rxc root v (pre ++ Step.scan :: post) = .ok w := by
  intro pre
  induction pre with
  | nil =>
      intro v w post h
      simp only [lookupSteps] at h
      cases h
      simp [lookupSteps]
  | cons s pre ih =>
      intro v w post h
      cases s with
      | key k sub =>
          simp only [List.cons_append, lookupSteps] at h ⊢
          rcases hq : lookupKey v k sub with ⟨⟨p, c⟩, eo⟩
          rw [hq] at h
          cases eo with
          | none => exact ih _ _ _ h
          | some e => exact GoResult.noConfusion h
      | idx k idxs =>
          simp only [List.cons_append, lookupSteps] at h ⊢
          cases hk : (if 0 < k.length then ofExcept (get_key v k) else .ok v) with
          | ok obj1 =>
              rw [hk] at h
              simp only [GoResult.bind_ok] at h ⊢
              by_cases hl : 1 < idxs.length
              · simp only [if_pos hl] at h ⊢
                cases hc : idx_collect obj1 idxs with
                | ok res => rw [hc] at h; exact ih _ _ _ h
                | err e => rw [hc] at h; exact GoResult.noConfusion h
                | panicked m => rw [hc] at h; exact GoResult.noConfusion h
                | diverge => rw [hc] at h; exact GoResult.noConfusion h
              · simp only [if_neg hl] at h ⊢
                by_cases h1 : idxs.length = 1
                · simp only [if_pos h1] at h ⊢
                  cases hg : get_idx obj1 (idxs.getD 0 0) with
                  | ok x => rw [hg] at h; exact ih _ _ _ h
                  | err e => rw [hg] at h; exact GoResult.noConfusion h
                  | panicked m => rw [hg] at h; exact GoResult.noConfusion h
                  | diverge => rw [hg] at h; exact GoResult.noConfusion h
                · simp only [if_neg h1] at h ⊢
                  exact GoResult.noConfusion h
          | err e => rw [hk] at h; exact GoResult.noConfusion h
          | panicked m => rw [hk] at h; exact GoResult.noConfusion h
          | diverge => rw [hk] at h; exact GoResult.noConfusion h
      | range k frm tob =>
          simp only [List.cons_append, lookupSteps] at h ⊢
          cases hk : (if 0 < k.length then ofExcept (get_key v k) else .ok v) with
          | ok obj1 =>
              rw [hk] at h
              simp only [GoResult.bind_ok] at h ⊢
              cases hg : get_range obj1 frm tob with
              | ok x => rw [hg] at h; exact ih _ _ _ h
              | err e => rw [hg] at h; exact GoResult.noConfusion h
              | panicked m => rw [hg] at h; exact GoResult.noConfusion h
              | diverge => rw [hg] at h; exact GoResult.noConfusion h
          | err e => rw [hk] at h; exact GoResult.noConfusion h
          | panicked m => rw [hk] at h; exact GoResult.noConfusion h
          | diverge => rw [hk] at h; exact GoResult.noConfusion h
      | filter k clause =>
          simp only [List.cons_append, lookupSteps] at h ⊢
          cases hk : ofExcept (get_key v k) with
          | ok obj1 =>
              rw [hk] at h
              simp only [GoResult.bind_ok] at h ⊢
              cases hg : get_filtered rxc obj1 root clause with
              | ok res => rw [hg] at h; exact ih _ _ _ h
              | err e => rw [hg] at h; exact GoResult.noConfusion h
              | panicked m => rw [hg] at h; exact GoResult.noConfusion h
              | diverge => rw [hg] at h; exact GoResult.noConfusion h
          | err e => rw [hk] at h; exact GoResult.noConfusion h
          | panicked m => rw [hk] at h; exact GoResult.noConfusion h
          | diverge => rw [hk] at h; exact GoResult.noConfusion h
      | expr k e =>
          simp only [List.cons_append, lookupSteps] at h ⊢
          cases hk : lookupExpression v root k e with
          | ok x => rw [hk] at h; exact ih _ _ _ h
          | err e2 => rw [hk] at h; exact GoResult.noConfusion h
          | panicked m => rw [hk] at h; exact GoResult.noConfusion h
          | diverge => rw [hk] at h; exact GoResult.noConfusion h
      | scan =>
          simp only [List.cons_append, lookupSteps] at h ⊢
          exact h
      | root =>
          simp only [List.cons_append, lookupSteps] at h ⊢
          exact GoResult.noConfusion h

/-- C10. A `scan` (wildcard) step short-circuits the evaluation at any
position: whatever value the steps before it produce is returned and every
step after it is ignored. In particular `$.a..b` compiles to
`[key a, scan, key b]`, so it returns the value at `$.a` and never consults
`b`. -/
theorem c10_wildcard_short_circuit :
    Compile "$.a..b" = .ok [Step.key "a" none, Step.scan, Step.key "b" none] ∧
    ∀ (rxc : String → Option (String → Bool)) (root v w : Value) (pre post : List Step),
      lookupSteps rxc root v pre = .ok w →
      lookupSteps rxc root v (pre ++ Step.scan :: post) = .ok w :=
  ⟨by decide, fun rxc root v w pre post h => lookupSteps_scan_short_circuit rxc root pre v w post h⟩

/-- Witness for C10: on root `{"a": {"b": 1}}` the compiled `$.a..b`
returns the object at `$.a`, ignoring the trailing `b` step. -/
theorem c10_witness :
    lookupSteps (fun _ => none) (Value.obj [("a", .obj [("b", .num 1)])])
      (Value.obj [("a", .obj [("b", .num 1)])])
      ([Step.key "a" none] ++ Step.scan :: [Step.key "b" none]) = .ok (.obj [("b", .num 1)]) :=
  c10_wildcard_short_circuit.2 (fun _ => none) _ _ _ [Step.key "a" none] [Step.key "b" none] rfl

/-- Rebuilding a string from its characters gives the string back. -/
theorem string_mk_toList (s : String) : String.mk s.toList = s := by
  cases s
  rfl

/-- Helper for C6: characters that are neither spaces nor quotes are
accumulated verbatim into the current part by `parse_filter`'s loop. -/
theorem parse_filter_loop_accum :
    ∀ (cs1 cs2 lp op rp tmp : List Char) (stage : Nat) (embrace : Bool) (idx : Nat),
      (∀ c ∈ cs1, ¬ c = spaceChar ∧ ¬ c = quoteChar) →
      parse_filter_loop (cs1 ++ cs2) lp op rp tmp stage embrace idx =
        parse_filter_loop cs2 lp op rp (tmp ++ cs1) stage embrace (idx + cs1.length) := by
  intro cs1
  induction cs1 with
  | nil => intro cs2 lp op rp tmp stage embrace idx _; simp
  | cons c rest ih =>
      intro cs2 lp op rp tmp stage embrace idx h
      have hc := h c (List.mem_cons_self c rest)
      have hrest : ∀ x ∈ rest, ¬ x = spaceChar ∧ ¬ x = quoteChar :=
        fun x hx => h x (List.mem_cons_of_mem c hx)
      have hq : (c == quoteChar) = false := by
        simp [hc.2]
      have hs : (c == spaceChar) = false := by
        simp [hc.1]
      simp only [List.cons_append, parse_filter_loop, hq, hs, Bool.false_eq_true, if_false]
      rw [show (rest.append cs2) = rest ++ cs2 from rfl]
      rw [ih cs2 lp op rp (tmp ++ [c]) stage embrace (idx + 1) hrest]
      simp only [List.append_assoc, List.singleton_append, List.length_cons]
      congr 1
      omega

/-- Helper for C6: a space at stage `0` outside quotes commits the buffered
part as the left operand and advances to stage `1`. -/
theorem parse_filter_loop_space_step (rest lp op rp tmp : List Char) (idx : Nat) :
    parse_filter_loop (spaceChar :: rest) lp op rp tmp 0 false idx =
      parse_filter_loop rest tmp op rp [] 1 false (idx + 1) := by
  rw [parse_filter_loop]
  simp [show (spaceChar == quoteChar) = false from by decide]

/-- C6. A filter clause that is a single operand (no spaces, no quoted
parts) parses with the implicit `exists` operator — identically to the same
clause written with an explicit ` exists` — and under `exists` an element is
selected exactly when the operand resolves without error to a non-null
value (resolution errors are swallowed and the element is simply not
selected). -/
theorem c6_default_filter_operator (lp : String)
    (h1 : lp.toList ≠ [])
    (h2 : ∀ c ∈ lp.toList, ¬ c = spaceChar ∧ ¬ c = quoteChar) :
    parse_filter lp = .ok (lp, "exists", "") ∧
    parse_filter (lp ++ " exists") = .ok (lp, "exists", "") ∧
    ∀ (obj root : Value) (rp : String),
      (eval_filter obj root lp "exists" rp = .ok true ↔
        ∃ v, get_lp_v obj root lp = .ok v ∧ v ≠ .null) := by
  refine ⟨?_, ?_, ?_⟩
  · have hacc := parse_filter_loop_accum lp.toList [] [] [] [] [] 0 false 0 h2
    simp only [List.append_nil, List.nil_append] at hacc
    unfold parse_filter
    rw [hacc, parse_filter_loop]
    rw [if_pos h1, if_pos rfl]
    rw [string_mk_toList]
  · have hdata : (lp ++ " exists").toList = lp.toList ++ (" exists").toList := by
      simp [String.toList, String.data_append]
    unfold parse_filter
    rw [hdata]
    rw [show (" exists").toList = spaceChar :: "exists".toList from by decide]
    rw [parse_filter_loop_accum lp.toList (spaceChar :: "exists".toList) [] [] [] [] 0 false 0 h2]
    simp only [List.nil_append, Nat.zero_add]
    rw [parse_filter_loop_space_step]
    rw [show ("exists".toList : List Char) = "exists".toList ++ [] from by simp]
    rw [parse_filter_loop_accum "exists".toList [] lp.toList [] [] [] 1 false (lp.toList.length + 1) (by decide)]
    rw [parse_filter_loop]
    rw [if_pos (by decide : ([] : List Char) ++ "exists".toList ≠ [])]
    rw [if_neg (by decide : ¬ (1 : Nat) = 0), if_pos rfl]
    rw [string_mk_toList]
    rfl
  · intro obj root rp
    constructor
    · intro he
      cases hg : get_lp_v obj root lp with
      | ok v =>
          refine ⟨v, rfl, ?_⟩
          unfold eval_filter at he
          rw [hg] at he
          cases v <;> simp_all
      | err e =>
          unfold eval_filter at he
          rw [hg] at he
          simp at he
      | panicked m =>
          unfold eval_filter at he
          rw [hg] at he
          exact GoResult.noConfusion he
      | diverge =>
          unfold eval_filter at he
          rw [hg] at he
          exact GoResult.noConfusion he
    · rintro ⟨v, hg, hv⟩
      unfold eval_filter
      rw [hg]
      cases v <;> simp_all

/-- Witness for C6 at the clause `@.isbn`. -/
theorem c6_witness : parse_filter "@.isbn" = .ok ("@.isbn", "exists", "") :=
  (c6_default_filter_operator "@.isbn" (by decide) (by decide)).1

/-- C9. Read-only evaluation: running the heap `Lookup` on any well-formed
heap, for any compiled step list, any root, any fuel, and any
regular-expression engine, leaves every existing heap cell — every object,
array, and scalar of the tree — exactly as it was, whether the evaluation
succeeds, fails, panics, or runs out of fuel. (Fresh cells appear only for
the fresh result slices Go builds while flattening, slicing, multi-indexing,
and filtering.) -/
theorem c9_lookup_read_only (rxc : String → Option (String → Bool)) (fuel : Nat)
    (steps : List Step) (h : Heap) (rootA : Addr) (hw : h.WF) :
    ∀ (a : Addr) (n : Node), h.get a = some n →
      (Lookup_h rxc fuel h rootA steps).2.get a = some n := by
  intro a n hn
  have hp := lookupLoop_h_pres rxc fuel steps h rootA rootA hw
  exact hp.2.2 a n hn

/-- Writing one cell leaves every other cell unchanged. -/
theorem lookup_setMem_ne (l : List (Addr × Node)) (p : Addr) (n : Node) (a : Addr) (hne : a ≠ p) :
    List.lookup a (setMem l p n) = List.lookup a l := by
  induction l with
  | nil => simp [setMem]
  | cons q rest ih =>
      rcases q with ⟨b, m⟩
      simp only [setMem]
      by_cases hbp : b = p
      · subst hbp
        rw [if_pos rfl]
        rw [List.lookup, List.lookup]
        rw [beq_false_of_ne hne]
      · rw [if_neg hbp]
        rw [List.lookup, List.lookup]
        by_cases hab : a = b
        · subst hab
          simp
        · rw [beq_false_of_ne hab]
          exact ih

/-- Writing an existing cell makes its lookup return the new node. -/
theorem lookup_setMem_eq (l : List (Addr × Node)) (p : Addr) (n m : Node)
    (hm : List.lookup p l = some m) : List.lookup p (setMem l p n) = some n := by
  induction l with
  | nil => simp [List.lookup] at hm
  | cons q rest ih =>
      rcases q with ⟨b, m0⟩
      simp only [setMem]
      by_cases hbp : b = p
      · subst hbp
        rw [if_pos rfl]
        rw [List.lookup]
        simp
      · rw [if_neg hbp]
        rw [List.lookup]
        have hpb : ¬ p = b := fun hc => hbp hc.symm
        rw [beq_false_of_ne hpb]
        rw [List.lookup] at hm
        rw [beq_false_of_ne hpb] at hm
        exact ih hm

/-- `Heap.set` at one address leaves every other address unchanged. -/
theorem heap_get_set_ne (h : Heap) (p : Addr) (n : Node) (a : Addr) (hne : a ≠ p) :
    (h.set p n).get a = h.get a :=
  lookup_setMem_ne h.mem p n a hne

/-- `Heap.set` at an existing address stores the new node. -/
theorem heap_get_set_eq (h : Heap) (p : Addr) (n m : Node) (hm : h.get p = some m) :
    (h.set p n).get p = some n :=
  lookup_setMem_eq h.mem p n m hm

/-- Looking up the key just written by a Go map assignment returns the new
value. -/
theorem lookupFieldN_setFieldN (fs : List (String × Addr)) (k : String) (v : Addr) :
    lookupFieldN (setFieldN fs k v) k = some v := by
  induction fs with
  | nil => simp [setFieldN, lookupFieldN]
  | cons q rest ih =>
      rcases q with ⟨k0, b⟩
      simp only [setFieldN]
      by_cases hk : (k0 == k) = true
      · rw [if_pos hk]
        simp [lookupFieldN]
      · rw [if_neg hk]
        simp only [lookupFieldN]
        rw [show (k0 == k) = false from by simpa using hk]
        exact ih

/-- A purely-object walk always visits at least its starting address. -/
theorem walkObjs_cons_shape :
    ∀ (ks : List String) (h : Heap) (a : Addr) (tr : List Addr),
      walkObjs h a ks = some tr → ∃ tr0, tr = a :: tr0 := by
  intro ks h a tr hw
  cases ks with
  | nil =>
      simp only [walkObjs] at hw
      exact ⟨[], by injection hw with hw; exact hw.symm⟩
  | cons k0 ks =>
      simp only [walkObjs] at hw
      split at hw
      · split at hw
        · rename_i b _
          rcases Option.map_eq_some'.mp hw with ⟨u, _, htr⟩
          exact ⟨u, htr.symm⟩
        · exact Option.noConfusion hw
      · exact Option.noConfusion hw

/-- Writing a cell that no earlier address of a purely-object walk touches
leaves the walk intact (its last hop is never read). -/
theorem walkObjs_set_other :
    ∀ (ks : List String) (h : Heap) (par0 : Addr) (tr : List Addr) (par : Addr) (n : Node),
      walkObjs h par0 ks = some tr → (∀ x ∈ tr.dropLast, x ≠ par) →
      walkObjs (h.set par n) par0 ks = some tr := by
  intro ks
  induction ks with
  | nil =>
      intro h par0 tr par n hw _
      simpa [walkObjs] using hw
  | cons k0 ks' ih =>
      intro h par0 tr par n hw hd
      simp only [walkObjs] at hw ⊢
      split at hw
      · rename_i fs hg
        split at hw
        · rename_i b hf
          rcases Option.map_eq_some'.mp hw with ⟨u, hu, htr⟩
          rcases walkObjs_cons_shape ks' h b u hu with ⟨u0, hu0⟩
          have hune : u ≠ [] := by rw [hu0]; exact List.cons_ne_nil _ _
          have htr2 : tr.dropLast = par0 :: u.dropLast := by
            rw [← htr, List.dropLast_cons_of_ne_nil hune]
          have hp0 : par0 ≠ par := by
            apply hd
            rw [htr2]
            exact List.mem_cons_self _ _
          have hd2 : ∀ x ∈ u.dropLast, x ≠ par := by
            intro x hx
            apply hd
            rw [htr2]
            exact List.mem_cons_of_mem _ hx
          simp only [heap_get_set_ne h par n par0 hp0, hg, hf]
          rw [ih h b u par n hu hd2]
          simpa using htr
        · exact Option.noConfusion hw
      · exact Option.noConfusion hw

/-- A plain key step over an object node resolves through the node's field
list: the child is the field's address, or the error is `NotExist`. -/
theorem lookupKey_h_obj (f : Nat) (h : Heap) (a : Addr) (k : String) (fs : List (String × Addr))
    (hg : h.get a = some (.obj fs)) :
    lookupKey_h (f + 1) h a k none =
      (match lookupFieldN fs k with
       | some b => (.ok ((a, some b), none), h)
       | none => (.ok ((a, none), some (.notExist k)), h)) := by
  cases hf : lookupFieldN fs k with
  | some b => simp [lookupKey_h, get_key_h, hg, hf]
  | none => simp [lookupKey_h, get_key_h, hg, hf]

/-- The last element of a cons with a nonempty tail is the tail's last
element. -/
theorem getLast_cons_ne_nil (a : Addr) (u : List Addr) (hu : u ≠ []) :
    (a :: u).getLast? = u.getLast? := by
  cases u with
  | nil => exact absurd rfl hu
  | cons c cs => exact List.getLast?_cons_cons

/-- `Set`'s traversal along a purely-object key path: every intermediate
hop resolves, the loop reaches the terminal parent, and the terminal write
binds the final key to the value in the parent object — whether or not the
final key already existed (`NotExist` on the last step is tolerated). -/
theorem SetLoopL_objpath (rxc : String → Option (String → Bool)) (f : Nat) :
    ∀ (ks : List String) (kn : String) (h : Heap) (rootA par0 : Addr) (tr : List Addr)
      (par : Addr) (fs : List (String × Addr)) (child : Option Addr) (lastErr : Option JErr) (v : Addr),
      walkObjs h par0 ks = some tr →
      tr.getLast? = some par →
      h.get par = some (.obj fs) →
      SetLoopL rxc (f + 1) h rootA par0 child lastErr ((ks ++ [kn]).map (fun k => Step.key k none)) v =
        (.ok (), h.set par (.obj (setFieldN fs kn v))) := by
  intro ks
  induction ks with
  | nil =>
      intro kn h rootA par0 tr par fs child lastErr v hw hl hp
      have htr : tr = [par0] := by simpa [walkObjs] using hw.symm
      have hpp : par = par0 := by
        rw [htr] at hl
        simpa using hl.symm
      subst hpp
      simp only [List.nil_append, List.map, SetLoopL, SetLoop]
      rw [lookupKey_h_obj f h par kn fs hp]
      cases hf : lookupFieldN fs kn with
      | some b =>
          simp only [hf]
          simp only [SetTerminal, hp, Step.keyOf]
      | none =>
          simp only [hf]
          simp only [tolerated, if_true]
          simp only [SetTerminal, hp, Step.keyOf]
  | cons k0 ks' ih =>
      intro kn h rootA par0 tr par fs child lastErr v hw hl hp
      simp only [walkObjs] at hw
      split at hw
      · rename_i fs0 hg0
        split at hw
        · rename_i b hf0
          rcases Option.map_eq_some'.mp hw with ⟨u, hu, htr⟩
          rcases walkObjs_cons_shape ks' h b u hu with ⟨u0, hu0⟩
          have hune : u ≠ [] := by rw [hu0]; exact List.cons_ne_nil _ _
          have hlu : u.getLast? = some par := by
            rw [← htr] at hl
            rw [← getLast_cons_ne_nil par0 u hune]
            exact hl
          simp only [List.cons_append, List.map, SetLoopL, SetLoop]
          rw [lookupKey_h_obj f h par0 k0 fs0 hg0]
          simp only [hf0]
          cases hms : (ks' ++ [kn]).map (fun k => Step.key k none) with
          | nil => simp at hms
          | cons s2 rest2 =>
              have hrec := ih kn h rootA b u par fs (some b) none v hu hlu hp
              rw [hms] at hrec
              simp only [SetLoopL] at hrec
              simp only [hms]
              exact hrec
        · exact Option.noConfusion hw
      · exact Option.noConfusion hw

/-- `Lookup`'s traversal along the same purely-object key path: every hop
resolves through the objects and the final key's value is returned, with
the heap untouched. -/
theorem lookupLoop_objpath (rxc : String → Option (String → Bool)) (g : Nat) :
    ∀ (ks : List String) (kn : String) (h : Heap) (rootA par0 : Addr) (tr : List Addr)
      (par : Addr) (fs : List (String × Addr)) (v : Addr),
      walkObjs h par0 ks = some tr →
      tr.getLast? = some par →
      h.get par = some (.obj fs) →
      lookupFieldN fs kn = some v →
      lookupLoop_h rxc (g + 1) h rootA par0 ((ks ++ [kn]).map (fun k => Step.key k none)) =
        (.ok v, h) := by
  intro ks
  induction ks with
  | nil =>
      intro kn h rootA par0 tr par fs v hw hl hp hf
      have htr : tr = [par0] := by simpa [walkObjs] using hw.symm
      have hpp : par = par0 := by
        rw [htr] at hl
        simpa using hl.symm
      subst hpp
      simp only [List.nil_append, List.map, lookupLoop_h]
      rw [lookupKey_h_obj g h par kn fs hp]
      simp only [hf]
  | cons k0 ks' ih =>
      intro kn h rootA par0 tr par fs v hw hl hp hf
      simp only [walkObjs] at hw
      split at hw
      · rename_i fs0 hg0
        split at hw
        · rename_i b hf0
          rcases Option.map_eq_some'.mp hw with ⟨u, hu, htr⟩
          rcases walkObjs_cons_shape ks' h b u hu with ⟨u0, hu0⟩
          have hune : u ≠ [] := by rw [hu0]; exact List.cons_ne_nil _ _
          have hlu : u.getLast? = some par := by
            rw [← htr] at hl
            rw [← getLast_cons_ne_nil par0 u hune]
            exact hl
          simp only [List.cons_append, List.map, lookupLoop_h]
          rw [lookupKey_h_obj g h par0 k0 fs0 hg0]
          simp only [hf0]
          exact ih kn h rootA b u par fs v hu hlu hp hf
        · exact Option.noConfusion hw
      · exact Option.noConfusion hw

/-- `lookupKey` with no quoted sub-key and a nonempty key is the plain key
lookup, with the stepped-from object kept as the parent. -/
theorem lookupKey_h_nosub (fuel : Nat) (h : Heap) (a : Addr) (k : String)
    (hk : (k == "") = false) :
    lookupKey_h fuel h a k none =
      (match get_key_h fuel h a k with
       | (.panicked m, h1) => (.panicked m, h1)
       | (.diverge, h1) => (.diverge, h1)
       | (.err e, h1) => (.ok ((a, none), some e), h1)
       | (.ok child, h1) => (.ok ((a, some child), none), h1)) := by
  simp [lookupKey_h, hk]

/-- C1 (counterexample): for the root `{"a": [{"b": 1}]}` every container
named by `$.a.b` exists, `Set(root, "$.a.b", 5)` returns no error, but the
subsequent `Lookup` of the compiled path returns a fresh one-element array
`[5]`, not the value `5`: the key step over the array flattens on read and
broadcasts on write, so the round trip fails. -/
theorem c1_counterexample :
    Compile "$.a.b" = .ok [Step.key "a" none, Step.key "b" none] ∧
    readVal 4 c1CounterHeap 0 = some (.obj [("a", .arr [.obj [("b", .num 1)]])]) ∧
    c1CounterHeap.get 4 = some (.num 5) ∧
    SetGo (fun _ => none) 10 c1CounterHeap 0 "$.a.b" 4 = (.ok (), c1CounterAfter) ∧
    Lookup_h (fun _ => none) 10 c1CounterAfter 0 [Step.key "a" none, Step.key "b" none] =
      (.ok 6, c1CounterFinal) ∧
    readVal 10 c1CounterFinal 6 = some (.arr [.num 5]) ∧
    Value.arr [.num 5] ≠ Value.num 5 := by
  refine ⟨by decide, ?_, by decide, ?_, ?_, ?_, fun hv => Value.noConfusion hv⟩
  · simp only [readVal, readVals, readFields,
      show c1CounterHeap.get 0 = some (.obj [("a", 1)]) from rfl,
      show c1CounterHeap.get 1 = some (.arr [2]) from rfl,
      show c1CounterHeap.get 2 = some (.obj [("b", 3)]) from rfl,
      show c1CounterHeap.get 3 = some (.num 1) from rfl]
    rfl
  · have tA : get_key_h 8 c1CounterHeap 2 "b" = (.ok 3, c1CounterHeap) := by
      simp only [get_key_h]
      rfl
    have tB : get_key_all_h 8 c1CounterHeap [2] "b" = ([3], c1CounterHeap) := by
      simp only [get_key_all_h, tA]
    have tC : get_key_h 9 c1CounterHeap 1 "b" =
        (.ok 5, ⟨(5, .arr [3]) :: c1CounterHeap.mem, 6⟩) := by
      simp only [get_key_h, show c1CounterHeap.get 1 = some (.arr [2]) from rfl, tB]
      rfl
    have tD : lookupKey_h 9 c1CounterHeap 0 "a" none =
        (.ok ((0, some 1), none), c1CounterHeap) := by
      rw [show (9 : Nat) = 8 + 1 from rfl,
          lookupKey_h_obj 8 c1CounterHeap 0 "a" [("a", 1)] rfl]
      rfl
    have tE : lookupKey_h 9 c1CounterHeap 1 "b" none =
        (.ok ((1, some 5), none), ⟨(5, .arr [3]) :: c1CounterHeap.mem, 6⟩) := by
      rw [lookupKey_h_nosub 9 c1CounterHeap 1 "b" rfl, tC]
    have tM : lookupKey_h 8 (⟨(5, .arr [3]) :: c1CounterHeap.mem, 6⟩ : Heap) 2 "b" none =
        (.ok ((2, some 3), none), ⟨(5, .arr [3]) :: c1CounterHeap.mem, 6⟩) := by
      rw [show (8 : Nat) = 7 + 1 from rfl,
          lookupKey_h_obj 7 (⟨(5, .arr [3]) :: c1CounterHeap.mem, 6⟩ : Heap) 2 "b" [("b", 3)] rfl]
      rfl
    have tN : SetTerminal (fun _ => none) 8 (⟨(5, .arr [3]) :: c1CounterHeap.mem, 6⟩ : Heap) 2 2
        (Step.key "b" none) none 4 = (.ok (), c1CounterAfter) := by
      simp only [SetTerminal,
        show (⟨(5, .arr [3]) :: c1CounterHeap.mem, 6⟩ : Heap).get 2 = some (.obj [("b", 3)]) from rfl]
      rfl
    have tL : SetLoop (fun _ => none) 8 (⟨(5, .arr [3]) :: c1CounterHeap.mem, 6⟩ : Heap) 2 2
        (some 2) none (Step.key "b" none) [] 4 = (.ok (), c1CounterAfter) := by
      simp only [SetLoop, tM]
      exact tN
    have tK : SetGo (fun _ => none) 9 (⟨(5, .arr [3]) :: c1CounterHeap.mem, 6⟩ : Heap) 2 "$.b" 4 =
        (.ok (), c1CounterAfter) := by
      simp only [SetGo, show Compile "$.b" = .ok [Step.key "b" none] from by decide]
      exact tL
    have tJ : SetBroadcast (fun _ => none) 9 (⟨(5, .arr [3]) :: c1CounterHeap.mem, 6⟩ : Heap)
        [2] "$.b" 4 = (.ok (), c1CounterAfter) := by
      simp only [SetBroadcast, tK]
    have tI : SetTerminal (fun _ => none) 9 (⟨(5, .arr [3]) :: c1CounterHeap.mem, 6⟩ : Heap) 0 1
        (Step.key "b" none) none 4 = (.ok (), c1CounterAfter) := by
      simp only [SetTerminal,
        show (⟨(5, .arr [3]) :: c1CounterHeap.mem, 6⟩ : Heap).get 1 = some (.arr [2]) from rfl]
      rw [show stepToPath (Step.key "b" none) = "$.b" from rfl]
      exact tJ
    simp only [SetGo,
      show Compile "$.a.b" = .ok [Step.key "a" none, Step.key "b" none] from by decide]
    simp only [SetLoop, tD, tE]
    exact tI
  · have uA : lookupKey_h 10 c1CounterAfter 0 "a" none =
        (.ok ((0, some 1), none), c1CounterAfter) := by
      rw [show (10 : Nat) = 9 + 1 from rfl,
          lookupKey_h_obj 9 c1CounterAfter 0 "a" [("a", 1)] rfl]
      rfl
    have uB : get_key_h 9 c1CounterAfter 2 "b" = (.ok 4, c1CounterAfter) := by
      simp only [get_key_h]
      rfl
    have uC : get_key_all_h 9 c1CounterAfter [2] "b" = ([4], c1CounterAfter) := by
      simp only [get_key_all_h, uB]
    have uD : get_key_h 10 c1CounterAfter 1 "b" = (.ok 6, c1CounterFinal) := by
      simp only [get_key_h, show c1CounterAfter.get 1 = some (.arr [2]) from rfl, uC]
      rfl
    have uE : lookupKey_h 10 c1CounterAfter 1 "b" none =
        (.ok ((1, some 6), none), c1CounterFinal) := by
      rw [lookupKey_h_nosub 10 c1CounterAfter 1 "b" rfl, uD]
    simp only [Lookup_h, lookupLoop_h, uA, uE]
  · have vA : readVal 9 c1CounterFinal 4 = some (.num 5) := by
      simp only [readVal]
      rfl
    have vB : readVals 9 c1CounterFinal [4] = some [.num 5] := by
      simp only [readVals, vA]
    simp only [readVal, show c1CounterFinal.get 6 = some (.arr [4]) from rfl, vB]
    rfl

/-- C1 (amended): the round trip does hold for a path of plain key steps
that resolves through objects only. If the compiled path is a chain of key
steps, walking its keys from the root visits only object cells, and no cell
visited before the final parent is that parent itself, then `Set` reaches
the parent and rebinds the final key to the new value, and `Lookup` of the
same compiled path against the updated heap returns exactly that value.
Scenario C, root `{"x":{"y":1}}` with path `$.x.y`, is such a path. -/
theorem c1_set_then_lookup (rxc : String → Option (String → Bool)) (f g : Nat)
    (path : String) (ks : List String) (kn : String) (h : Heap) (rootA : Addr)
    (tr : List Addr) (par : Addr) (fs : List (String × Addr)) (vA : Addr)
    (hc : Compile path = .ok ((ks ++ [kn]).map (fun k => Step.key k none)))
    (hw : walkObjs h rootA ks = some tr)
    (hl : tr.getLast? = some par)
    (hp : h.get par = some (.obj fs))
    (hd : ∀ x ∈ tr.dropLast, x ≠ par) :
    SetGo rxc (f + 2) h rootA path vA =
        (.ok (), h.set par (.obj (setFieldN fs kn vA))) ∧
      Lookup_h rxc (g + 1) (h.set par (.obj (setFieldN fs kn vA))) rootA
          ((ks ++ [kn]).map (fun k => Step.key k none)) =
        (.ok vA, h.set par (.obj (setFieldN fs kn vA))) := by
  constructor
  · have hsl := SetLoopL_objpath rxc f ks kn h rootA rootA tr par fs (some rootA) none vA hw hl hp
    rw [show f + 2 = (f + 1) + 1 from rfl]
    simp only [SetGo, hc]
    cases hms : (ks ++ [kn]).map (fun k => Step.key k none) with
    | nil => simp at hms
    | cons s rest =>
        rw [hms] at hsl
        simp only [SetLoopL] at hsl
        exact hsl
  · have hw2 := walkObjs_set_other ks h rootA tr par (.obj (setFieldN fs kn vA)) hw hd
    have hp2 : (h.set par (.obj (setFieldN fs kn vA))).get par =
        some (.obj (setFieldN fs kn vA)) := heap_get_set_eq h par _ _ hp
    simp only [Lookup_h]
    exact lookupLoop_objpath rxc g ks kn _ rootA rootA tr par _ vA hw2 hl hp2
      (lookupFieldN_setFieldN fs kn vA)

/-- Witness for C1: Scenario C. Root `{"x":{"y":1}}` at address `0` with
the boxed `5` at address `3`: `Set(root, "$.x.y", 5)` rebinds `y` in the
inner object, and `Lookup` of the compiled `$.x.y` against the updated
heap returns the boxed `5`. -/
theorem c1_witness :
    SetGo (fun _ => none) (8 + 2) c1WitnessHeap 0 "$.x.y" 3 =
        (.ok (), c1WitnessHeap.set 1 (.obj (setFieldN [("y", 2)] "y" 3))) ∧
      Lookup_h (fun _ => none) (9 + 1) (c1WitnessHeap.set 1 (.obj (setFieldN [("y", 2)] "y" 3))) 0
          ((["x"] ++ ["y"]).map (fun k => Step.key k none)) =
        (.ok 3, c1WitnessHeap.set 1 (.obj (setFieldN [("y", 2)] "y" 3))) :=
  c1_set_then_lookup (fun _ => none) 8 9 "$.x.y" ["x"] "y" c1WitnessHeap 0 [0, 1] 1
    [("y", 2)] 3 (by decide) (by decide) (by decide) (by decide) (by decide)

/-- Witness for C9: a concrete lookup against a small tree keeps the cell
holding the inner object unchanged. -/
theorem c9_witness :
    (Lookup_h (fun _ => none) 10
        ⟨[(0, .obj [("x", 1)]), (1, .obj [("y", 2)]), (2, .num 1)], 3⟩ 0
        [Step.key "x" none]).2.get 1 = some (.obj [("y", 2)]) :=
  c9_lookup_read_only (fun _ => none) 10 [Step.key "x" none]
    ⟨[(0, .obj [("x", 1)]), (1, .obj [("y", 2)]), (2, .num 1)], 3⟩ 0
    (by decide) 1 (.obj [("y", 2)]) (by decide)

end Jsonpath
